import Mathlib

/-!
# Verification of the ziso-rs ZSO codec

A shallow embedding of `src/main.rs` of ziso-rs: the ZSO container
compressor (`compress_zso`) and decompressor (`decompress_zso`), together
with theorems settling the specification claims.

Modelling conventions:
* byte streams and files are `List Nat` (each element one byte);
* machine integers are `Nat` with explicit `% 2 ^ 32` (resp. `% 2 ^ 64`)
  truncation exactly where the source casts to `u32` (`as u32`);
* Rust panics are modelled as error values: functions that can panic return
  `Except ZErr _` (decoder) or `Option _` (encoder, whose only failure is
  the alignment-overflow panic);
* the LZ4 block codec (`lz4_flex::block::{compress, decompress}`) is an
  external library, not part of this repository; it is abstracted as a
  `LZ4` structure, and theorems that depend on its behaviour take the
  documented LZ4 contract as hypotheses.
-/

/-- Errors corresponding to the panics of the source program. -/
inductive ZErr where
  | eofPanic : ZErr
  | formatError : ZErr
  | removePanic : ZErr
  | shiftPanic : ZErr
  | corruption : Nat → Nat → Nat → ZErr
deriving DecidableEq, Repr

/-- Abstract interface of the raw LZ4 block codec used by the source
(`lz4_flex::block`).  `decomp buf n` is `decompress(&buf, n)` turned into
an `Option`: `none` is the `Err` case. -/
structure LZ4 where
  comp : List Nat → List Nat
  decomp : List Nat → Nat → Option (List Nat)

/-- `const ZSO_MAGIC : u32 = 0x4F53495A` (src/main.rs line 11). -/
def ZSO_MAGIC : Nat := 0x4F53495A

/-- `const ZSO_HEADER_SIZE : u32 = 0x18` (line 12). -/
def ZSO_HEADER_SIZE : Nat := 0x18

/-- `const ZSO_VER : i8 = 1` (line 13). -/
def ZSO_VER : Nat := 1

/-- Little-endian 4-byte serialization of a `u32` value. -/
def le32 (x : Nat) : List Nat :=
  [x % 256, x / 256 % 256, x / 65536 % 256, x / 16777216 % 256]

/-- Little-endian 8-byte serialization of a `u64` value. -/
def le64 (x : Nat) : List Nat :=
  le32 (x % 4294967296) ++ le32 (x / 4294967296)

/-- Little-endian 4-byte read (`read_u32::<LittleEndian>`). -/
def le32dec (l : List Nat) : Nat :=
  l.getD 0 0 + 256 * l.getD 1 0 + 65536 * l.getD 2 0 + 16777216 * l.getD 3 0

/-- Little-endian 8-byte read (`read_u64::<LittleEndian>`). -/
def le64dec (l : List Nat) : Nat :=
  le32dec (l.take 4) + 4294967296 * le32dec (l.drop 4)

/-- Reinterpret a byte as a signed `i8` (`read_i8`). -/
def i8dec (b : Nat) : Int :=
  if b % 256 < 128 then (b % 256 : Int) else (b % 256 : Int) - 256

/-- `generate_zso_header` (lines 41-54): magic, header size, total bytes,
block size, version and align, padded with two reserved zero bytes to
24 bytes, all little-endian. -/
def generate_zso_header (total_bytes block_size align : Nat) : List Nat :=
  le32 ZSO_MAGIC ++ le32 ZSO_HEADER_SIZE ++ le64 total_bytes ++ le32 block_size ++
    [ZSO_VER % 256, align % 256] ++ [0, 0]

/-- `read_zso_header` (lines 27-39): parse the six header fields from the
front of the file.  The source `unwrap`s each read, so a file shorter than
the 22 bytes the reads consume panics (`eofPanic`); the trailing 2 bytes
are only skipped over with `seek`, which does not fail past end of file. -/
def read_zso_header (file : List Nat) : Except ZErr (Nat × Nat × Nat × Nat × Int × Int) :=
  if 22 ≤ file.length then
    .ok (le32dec (file.take 4), le32dec ((file.drop 4).take 4),
      le64dec ((file.drop 8).take 8), le32dec ((file.drop 16).take 4),
      i8dec (file.getD 20 0), i8dec (file.getD 21 0))
  else
    .error .eofPanic

/-- Number of filler bytes `set_align` (lines 162-172) writes at position
`pos`: `(1 << align) - pos % (1 << align)` when `pos` is not aligned,
otherwise none.  `1 <<< align = 2 ^ align`. -/
def align_len (pos align : Nat) : Nat :=
  if pos % 2 ^ align > 0 then 2 ^ align - pos % 2 ^ align else 0

/-- The write position returned by `set_align` (lines 162-172). -/
def set_align (pos align : Nat) : Nat :=
  pos + align_len pos align

/-- `lz4_decompress` (lines 56-70): try to decompress; on failure drop the
last byte (`compressed.remove(compressed.len() - 1)`) and retry.  When the
buffer is empty the `remove` call panics with an arithmetic-underflow /
out-of-bounds panic, modelled as `ZErr.removePanic`.  The `Option` layer of
the source return type is kept: `.ok none` is the value the caller's
`expect` would trip on (provably unreachable, see claim C2). -/
def lz4_decompress (L : LZ4) (compressed : List Nat) (block_size : Nat) :
    Except ZErr (Option (List Nat)) :=
  match L.decomp compressed block_size with
  | some d => .ok (some d)
  | none =>
    if h : compressed.isEmpty then .error .removePanic
    else lz4_decompress L compressed.dropLast block_size
termination_by compressed.length
decreasing_by
  cases compressed with
  | nil => simp at h
  | cons a l => simp [List.length_dropLast]

/-- The seek position of the decoder for block `block` (lines 109-112):
`read_pos = (index & 0x7fffffff) << align`, computed on `u32`, so the
shifted value is truncated mod `2^32`. -/
def decode_read_pos (ibuf : List Nat) (align block : Nat) : Nat :=
  ((ibuf.getD block 0 &&& 0x7fffffff) <<< align) % 4294967296

/-- `u32` subtraction: both operands reduced to 32 bits, the difference
wrapping around mod `2^32` on underflow.  This is the release-build
behaviour of the source's `-` on `u32`; a debug build panics on the
wrapping case, so theorems that do not want to distinguish the two builds
must hypothesise away the underflow. -/
def u32sub (a b : Nat) : Nat :=
  (a % 4294967296 + 4294967296 - b % 4294967296) % 4294967296

/-- The number of bytes the decoder reads for block `block` (lines
114-126).  Both subtractions are `u32` subtractions (wrapping; a debug
build of the source panics instead when they underflow): for the last
block `(total_zso_bytes as u32) - read_pos`, otherwise
`(index2 - index) << align`. -/
def decode_read_size (ibuf : List Nat) (align block_size tzb total_block block : Nat) : Nat :=
  if ibuf.getD block 0 &&& 0x80000000 ≠ 0 then
    block_size
  else if block = total_block - 1 then
    u32sub (tzb % 4294967296) (decode_read_pos ibuf align block)
  else
    ((u32sub (ibuf.getD (block + 1) 0 &&& 0x7fffffff) (ibuf.getD block 0 &&& 0x7fffffff))
        <<< align) % 4294967296

/-- One iteration of the decoder loop (lines 109-154) for block `block`:
seek, read, decompress (with trim-and-retry) unless plain, then check the
length.  A negative parsed `align`, or one of 32 or more, would make the
`u32` shifts panic in a debug build; modelled as `shiftPanic`. -/
def decode_block (L : LZ4) (file ibuf : List Nat) (alignI : Int)
    (block_size tzb total_block block : Nat) : Except ZErr (List Nat) :=
  if alignI < 0 ∨ 32 ≤ alignI then .error .shiftPanic else
  let align := alignI.toNat
  let plain := ibuf.getD block 0 &&& 0x80000000
  let read_pos := decode_read_pos ibuf align block
  let read_size := decode_read_size ibuf align block_size tzb total_block block
  let zso_data := (file.drop read_pos).take read_size
  match (if plain ≠ 0 then Except.ok (some zso_data) else lz4_decompress L zso_data block_size) with
  | .error e => .error e
  | .ok none => .error (.corruption block read_pos read_size)
  | .ok (some dec_data) =>
    if dec_data.length ≠ block_size then .error (.corruption block read_pos read_size)
    else .ok dec_data

/-- The decoder's `while block < total_block` loop (lines 102-155), with
`k` blocks remaining starting at index `block`; the decoded blocks are
concatenated in order (the source writes them to the output file). -/
def decode_loop (L : LZ4) (file ibuf : List Nat) (alignI : Int)
    (block_size tzb total_block : Nat) : Nat → Nat → Except ZErr (List Nat)
  | 0, _ => .ok []
  | k + 1, block =>
    match decode_block L file ibuf alignI block_size tzb total_block block with
    | .error e => .error e
    | .ok dec_data =>
      match decode_loop L file ibuf alignI block_size tzb total_block k (block + 1) with
      | .error e => .error e
      | .ok rest => .ok (dec_data ++ rest)

/-- The part of `decompress_zso` after header parsing (lines 81-155):
validate the header fields (line 81, the `ziso file format error` panic,
modelled as `formatError`), read `total_block + 1` index entries (the
reads `unwrap`, so a short file is `eofPanic`), then run the block loop. -/
def decompress_body (L : LZ4) (file : List Nat)
    (magic header_size total_bytes block_size : Nat) (ver align : Int) :
    Except ZErr (List Nat) :=
  if magic ≠ ZSO_MAGIC ∨ block_size = 0 ∨ total_bytes = 0 ∨ header_size ≠ 24 ∨ ver > 1 then
    .error .formatError
  else
    let total_block := total_bytes / block_size
    if file.length < 24 + 4 * (total_block + 1) then .error .eofPanic
    else
      let index_buf := (List.range (total_block + 1)).map
        fun i => le32dec ((file.drop (24 + 4 * i)).take 4)
      decode_loop L file index_buf align block_size file.length total_block total_block 0

/-- `decompress_zso` (lines 72-160): parse the header, then validate and
decode. -/
def decompress_zso (L : LZ4) (file : List Nat) : Except ZErr (List Nat) :=
  match read_zso_header file with
  | .error e => .error e
  | .ok (magic, header_size, total_bytes, block_size, ver, align) =>
    decompress_body L file magic header_size total_bytes block_size ver align

/-- The per-block output of the encoder loop: the index entry recorded for
the block, the filler bytes written by `set_align`, the stored payload
(raw block or compressed data), and the aligned write position at which
the payload starts. -/
structure BlockOut where
  entry : Nat
  padb : List Nat
  stored : List Nat
  start : Nat
deriving DecidableEq, Repr

/-- One iteration of the encoder loop (lines 232-252): compress the block,
align the write position, record `(write_pos >> align) as u32` as the index
entry; store the block plain (and OR in the `0x80000000` flag) when
`100 * compressed_len / block_len >= percent`, otherwise panic if the entry
already uses bit 31 (`Align error`, modelled as `none`), else store the
compressed bytes. -/
def encode_block (L : LZ4) (percent align pad : Nat) (iso_data : List Nat) (write_pos : Nat) :
    Option (BlockOut × Nat) :=
  let zso_data := L.comp iso_data
  let wp := set_align write_pos align
  let padb := List.replicate (align_len write_pos align) pad
  let entry := (wp >>> align) % 4294967296
  if 100 * zso_data.length / iso_data.length ≥ percent then
    some (⟨entry ||| 0x80000000, padb, iso_data, wp⟩, wp + iso_data.length)
  else if entry &&& 0x80000000 > 0 then
    none
  else
    some (⟨entry, padb, zso_data, wp⟩, wp + zso_data.length)

/-- The encoder's `while block < total_block` loop (lines 211-253), over
the list of source blocks, threading the write position. -/
def compress_blocks (L : LZ4) (percent align pad : Nat) :
    List (List Nat) → Nat → Option (List BlockOut × Nat)
  | [], write_pos => some ([], write_pos)
  | iso_data :: rest, write_pos =>
    match encode_block L percent align pad iso_data write_pos with
    | none => none
    | some (bo, wp2) =>
      match compress_blocks L percent align pad rest wp2 with
      | none => none
      | some (bos, wpf) => some (bo :: bos, wpf)

/-- The encoder reads `total_block` blocks of 2048 bytes sequentially
(lines 232-236: `take(block_size).read_to_end`). -/
def readBlocks (data : List Nat) : Nat → List (List Nat)
  | 0 => []
  | n + 1 => data.take 2048 :: readBlocks (data.drop 2048) n

/-- The byte content of the block-payload region of the container: for
each block, its filler bytes followed by its stored bytes. -/
def payloadOf (bos : List BlockOut) : List Nat :=
  bos.flatMap fun bo => bo.padb ++ bo.stored

/-- The final index table (lines 241-256): one entry per block plus the
final entry `(write_pos >> align) as u32` holding the total size. -/
def build_index (bos : List BlockOut) (wpf align : Nat) : List Nat :=
  bos.map (fun bo => bo.entry) ++ [(wpf >>> align) % 4294967296]

/-- The alignment chosen by `compress_zso` (lines 183-187): with an
explicit `align` argument of 0, substitute `(total_bytes / 2^31) as i8`
— the `u64` quotient cast to a signed byte; otherwise use the argument. -/
def effective_align (align_arg total_bytes : Nat) : Int :=
  if align_arg = 0 then i8dec (total_bytes / 2147483648 % 256) else (align_arg : Int)

/-- The body of `compress_zso` (lines 174-272) up to serialization:
choose the alignment, split the input into `total_bytes / 2048` blocks,
and run the encoder loop starting right after the header and the
zero-filled index region (write position `24 + 4 * (total_block + 1)`).
Returns the alignment, the per-block outputs and the final write position.
An effective alignment that is negative or at least 64 would make the
`u64` shifts of the source panic in a debug build; modelled as `none`. -/
def compress_core (L : LZ4) (percent align_arg pad : Nat) (data : List Nat) :
    Option (Nat × List BlockOut × Nat) :=
  let total_bytes := data.length
  let alignI := effective_align align_arg total_bytes
  if alignI < 0 ∨ 64 ≤ alignI then none
  else
    let align := alignI.toNat
    let total_block := total_bytes / 2048
    match compress_blocks L percent align pad (readBlocks data total_block)
        (24 + 4 * (total_block + 1)) with
    | none => none
    | some (bos, wpf) => some (align, bos, wpf)

/-- The index table written by `compress_zso` (lines 241-262). -/
def compress_index (L : LZ4) (percent align_arg pad : Nat) (data : List Nat) :
    Option (List Nat) :=
  (compress_core L percent align_arg pad data).map
    fun awf => build_index awf.2.1 awf.2.2 awf.1

/-- `compress_zso` (lines 174-272): the full container file — header,
backpatched little-endian index table, and the block payload region. -/
def compress_zso (L : LZ4) (percent align_arg pad : Nat) (data : List Nat) :
    Option (List Nat) :=
  (compress_core L percent align_arg pad data).map
    fun awf =>
      generate_zso_header data.length 2048 awf.1 ++
        (build_index awf.2.1 awf.2.2 awf.1).flatMap le32 ++ payloadOf awf.2.1

/-- A trivial but contract-conforming LZ4 stand-in used for concrete
witnesses: `comp` is the identity, `decomp` succeeds exactly when the
buffer already has the expected length. -/
def idCodec : LZ4 where
  comp := fun x => x
  decomp := fun b bs => if b.length = bs then some b else none

/-- A stand-in codec whose compressed output is tiny, used to exercise the
store-compressed branch of the encoder. -/
def tinyCodec : LZ4 where
  comp := fun _ => [1]
  decomp := fun _ _ => none

instance exceptDecEq {e a : Type} [DecidableEq e] [DecidableEq a] : DecidableEq (Except e a)
  | .error x, .error y => if h : x = y then .isTrue (by rw [h]) else .isFalse (by simp [h])
  | .error _, .ok _ => .isFalse (by simp)
  | .ok _, .error _ => .isFalse (by simp)
  | .ok x, .ok y => if h : x = y then .isTrue (by rw [h]) else .isFalse (by simp [h])

/-- A throwaway `BlockOut` used as the `getD` default. -/
def dummyBlock : BlockOut := ⟨0, [], [], 0⟩

/-- The container `compress_zso` writes for the empty input. -/
def c1emptyFile : List Nat := generate_zso_header 0 2048 1 ++ le32 14

/-- The container `compress_zso` writes for 2048 sevens with align 1. -/
def c1file : List Nat :=
  generate_zso_header 2048 2048 1 ++ le32 2147483664 ++ le32 1040 ++ List.replicate 2048 7

/-- The index entry produced for the `i`-th block of an all-plain encoder
run that starts at write position `wp` with alignment 1 and no padding:
the source's `(write_pos >> align) as u32 | 0x80000000` (lines 240-245). -/
def c8entry (wp i : Nat) : Nat := (((wp + 2048 * i) >>> 1) % 4294967296) ||| 0x80000000

/-- The full `BlockOut` of that `i`-th block: 2048 zero bytes stored
plain at start `wp + 2048 * i`. -/
def c8blockOut (pad wp i : Nat) : BlockOut :=
  ⟨c8entry wp i, List.replicate 0 pad, List.replicate 2048 0, wp + 2048 * i⟩

/-! ## Bridge lemmas between the bitwise operations of the source and
ordinary arithmetic. -/

theorem land_mask (x n : Nat) : x &&& (2 ^ n - 1) = x % 2 ^ n := by
  apply Nat.eq_of_testBit_eq
  intro i
  rw [Nat.testBit_land, Nat.testBit_mod_two_pow, Nat.testBit_two_pow_sub_one]
  rw [Bool.and_comm]

theorem testBit_div_mod (x i : Nat) : x.testBit i = decide (x / 2 ^ i % 2 = 1) := by
  rw [Nat.testBit_to_div_mod]

theorem lor_pow_of_lt (x n : Nat) (h : x < 2 ^ n) : x ||| 2 ^ n = x + 2 ^ n := by
  apply Nat.eq_of_testBit_eq
  intro i
  rw [Nat.testBit_lor, Nat.add_comm x (2 ^ n)]
  rcases Nat.lt_trichotomy i n with hlt | rfl | hgt
  · rw [Nat.testBit_two_pow_add_gt hlt, Nat.testBit_two_pow_of_ne (Nat.ne_of_gt hlt)]
    rw [Bool.or_false]
  · rw [Nat.testBit_two_pow_add_eq, Nat.testBit_lt_two_pow h, Nat.testBit_two_pow_self]
    rfl
  · have h1 : 2 ^ n + x < 2 ^ i := by
      have h2 : 2 ^ n + x < 2 ^ (n + 1) := by
        have := Nat.pow_succ 2 n
        omega
      exact Nat.lt_of_lt_of_le h2 (Nat.pow_le_pow_right (by omega) hgt)
    rw [Nat.testBit_lt_two_pow h1,
      Nat.testBit_lt_two_pow (Nat.lt_of_lt_of_le h (Nat.pow_le_pow_right (by omega) (Nat.le_of_lt hgt))),
      Nat.testBit_two_pow_of_ne (Nat.ne_of_lt hgt)]
    rfl

theorem lor_pow_of_testBit (x n : Nat) (h : x.testBit n = true) : x ||| 2 ^ n = x := by
  apply Nat.eq_of_testBit_eq
  intro i
  rw [Nat.testBit_lor]
  rcases eq_or_ne i n with rfl | hne
  · simp [h]
  · simp [Nat.testBit_two_pow_of_ne (Ne.symm hne)]

theorem land_pow_eq (x n : Nat) : x &&& 2 ^ n = (x.testBit n).toNat * 2 ^ n :=
  Nat.and_two_pow x n

theorem land_pow_eq_zero (x n : Nat) (h : x < 2 ^ n) : x &&& 2 ^ n = 0 := by
  rw [land_pow_eq, Nat.testBit_lt_two_pow h]
  simp

theorem testBit_of_ge_lt (x n : Nat) (h1 : 2 ^ n ≤ x) (h2 : x < 2 ^ (n + 1)) :
    x.testBit n = true := by
  rw [testBit_div_mod]
  have hd : x / 2 ^ n = 1 := by
    apply Nat.div_eq_of_lt_le
    · simpa using h1
    · simpa [Nat.pow_succ, Nat.mul_comm] using h2
  simp [hd]

theorem mod_pow_of_ge_lt (x n : Nat) (h1 : 2 ^ n ≤ x) (h2 : x < 2 ^ (n + 1)) :
    x % 2 ^ n = x - 2 ^ n := by
  rw [Nat.mod_eq_sub_mod h1, Nat.mod_eq_of_lt]
  have := Nat.pow_succ 2 n
  omega

theorem land_pow_ne_zero (x n : Nat) (h1 : 2 ^ n ≤ x) (h2 : x < 2 ^ (n + 1)) :
    x &&& 2 ^ n ≠ 0 := by
  rw [land_pow_eq, testBit_of_ge_lt x n h1 h2]
  simp

/-- Instances of the mask lemmas at the concrete `u32` constants of the
source: `x &&& 0x7fffffff = x % 2^31`. -/
theorem land_mask31 (x : Nat) : x &&& 0x7fffffff = x % 2147483648 := by
  have h := land_mask x 31
  norm_num at h
  exact h

theorem land_flag_of_lt (x : Nat) (h : x < 2147483648) : x &&& 0x80000000 = 0 := by
  have := land_pow_eq_zero x 31 (by norm_num at *; omega)
  norm_num at this
  exact this

theorem land_flag_of_ge (x : Nat) (h1 : 2147483648 ≤ x) (h2 : x < 4294967296) :
    x &&& 0x80000000 ≠ 0 := by
  have := land_pow_ne_zero x 31 (by norm_num; omega) (by norm_num; omega)
  norm_num at this
  exact this

theorem lor_flag_of_lt (x : Nat) (h : x < 2147483648) : x ||| 0x80000000 = x + 2147483648 := by
  have := lor_pow_of_lt x 31 (by norm_num; omega)
  norm_num at this
  exact this

theorem lor_flag_of_ge (x : Nat) (h1 : 2147483648 ≤ x) (h2 : x < 4294967296) :
    x ||| 0x80000000 = x := by
  have := lor_pow_of_testBit x 31 (testBit_of_ge_lt x 31 (by norm_num; omega) (by norm_num; omega))
  norm_num at this
  exact this

theorem mod_mask31_of_ge (x : Nat) (h1 : 2147483648 ≤ x) (h2 : x < 4294967296) :
    x % 2147483648 = x - 2147483648 := by
  have := mod_pow_of_ge_lt x 31 (by norm_num; omega) (by norm_num; omega)
  norm_num at this
  exact this

/-! ## Facts about `set_align` -/

theorem set_align_mod (pos align : Nat) : set_align pos align % 2 ^ align = 0 := by
  unfold set_align align_len
  have h2 := Nat.two_pow_pos align
  have hm : pos % 2 ^ align < 2 ^ align := Nat.mod_lt pos h2
  have hq := Nat.div_add_mod pos (2 ^ align)
  by_cases h : pos % 2 ^ align > 0
  · rw [if_pos h]
    have hstep : pos + (2 ^ align - pos % 2 ^ align) = 2 ^ align * (pos / 2 ^ align) + 2 ^ align := by
      omega
    rw [hstep, ← Nat.mul_succ, Nat.mul_mod_right]
  · rw [if_neg h, Nat.add_zero]
    omega

theorem align_len_lt (pos align : Nat) : align_len pos align < 2 ^ align := by
  unfold align_len
  have hlt := Nat.mod_lt pos (Nat.two_pow_pos align)
  have := Nat.two_pow_pos align
  split <;> omega

theorem align_len_of_aligned (pos align : Nat) (h : pos % 2 ^ align = 0) :
    align_len pos align = 0 := by
  unfold align_len
  simp [h]

theorem le_set_align (pos align : Nat) : pos ≤ set_align pos align := by
  unfold set_align
  omega

theorem shiftRight_shiftLeft_of_aligned (s align : Nat) (h : s % 2 ^ align = 0) :
    (s >>> align) <<< align = s := by
  rw [Nat.shiftRight_eq_div_pow, Nat.shiftLeft_eq]
  exact Nat.div_mul_cancel (Nat.dvd_of_mod_eq_zero h)

theorem i8dec_of_lt (b : Nat) (h : b < 128) : i8dec b = (b : Int) := by
  unfold i8dec
  rw [if_pos (by omega : b % 256 < 128)]
  omega

/-- C10 (amended): with an explicit align of 0, `compress_zso` substitutes
`(total_bytes / 2^31) as i8` — the low byte of the 2-GiB quotient,
reinterpreted as a signed byte.  That value equals
`floor(total_bytes / 2^31)` whenever the quotient is below 128, i.e. for
inputs smaller than 2^38 bytes, and in that range an alignment of exactly
0 cannot result for inputs of 2^31 bytes or more; a nonzero explicit align
is honoured as given. -/
theorem c10_auto_align (align_arg total_bytes : Nat) :
    (align_arg ≠ 0 → effective_align align_arg total_bytes = align_arg) ∧
    (align_arg = 0 →
      effective_align align_arg total_bytes = i8dec (total_bytes / 2147483648 % 256)) ∧
    (align_arg = 0 → total_bytes < 274877906944 →
      effective_align align_arg total_bytes = ((total_bytes / 2147483648 : Nat) : Int)) ∧
    (2147483648 ≤ total_bytes → total_bytes < 274877906944 →
      effective_align align_arg total_bytes ≠ 0) := by
  have hdiv : total_bytes < 274877906944 → total_bytes / 2147483648 < 128 := by
    intro h
    omega
  refine ⟨fun h => ?_, fun h => ?_, fun h hs => ?_, fun h1 h2 => ?_⟩
  · simp [effective_align, h]
  · simp [effective_align, h]
  · have hq := hdiv hs
    rw [effective_align, if_pos h, Nat.mod_eq_of_lt (by omega : total_bytes / 2147483648 < 256)]
    exact i8dec_of_lt _ hq
  · rcases Nat.eq_zero_or_pos align_arg with rfl | hpos
    · have hq := hdiv h2
      rw [effective_align, if_pos rfl,
        Nat.mod_eq_of_lt (by omega : total_bytes / 2147483648 < 256), i8dec_of_lt _ hq]
      have hq1 : 1 ≤ total_bytes / 2147483648 := by
        omega
      exact_mod_cast Nat.pos_iff_ne_zero.mp hq1
    · rw [effective_align, if_neg (Nat.pos_iff_ne_zero.mp hpos)]
      exact_mod_cast Nat.pos_iff_ne_zero.mp hpos

/-- C10: the claim as frozen is false: the substituted value is the `i8`
cast of `floor(total_bytes / 2^31)`, not that quotient itself — at
`total_bytes = 2^39` the quotient is 256 but the cast wraps to 0, so align
0 does result for an input of 2^31 bytes or more. -/
theorem c10_counterexample :
    effective_align 0 549755813888 = 0 ∧
    549755813888 / 2147483648 = 256 ∧ (256 : Int) ≠ 0 ∧ 2147483648 ≤ 549755813888 := by
  refine ⟨by decide, by norm_num, by norm_num, by norm_num⟩

theorem c10_witness :
    effective_align 0 2147483648 ≠ 0 ∧ effective_align 3 2147483648 = 3 :=
  ⟨(c10_auto_align 0 2147483648).2.2.2 (by norm_num) (by norm_num),
   (c10_auto_align 3 2147483648).1 (by norm_num)⟩

/-- The `u32` subtraction agrees with the ordinary difference exactly in
the no-underflow regime. -/
theorem u32sub_of_le (a b : Nat) (hb : b ≤ a) (ha : a < 4294967296) :
    u32sub a b = a - b := by
  unfold u32sub
  omega

/-- C3 (amended): the decoder's seek position for block `i` is
`((index[i] & 0x7fffffff) << align) mod 2^32` — equal to the claimed
`(index[i] & 0x7fffffff) << align` whenever the next entry's shifted
offset fits in 32 bits — and the read length is: `block_size` when the
plain bit is set; `total_container_size - offset_i` for the last block;
and `offset_{i+1} - offset_i` (computed from the stripped adjacent
entries) otherwise, provided the stripped entries do not decrease, the
container size fits in 32 bits, and the block's offset does not exceed
the container size (outside these provisos the `u32` subtractions of the
source underflow: panic in a debug build, wraparound in release). -/
theorem c3_read_range (ibuf : List Nat) (align block_size tzb total_block block e e2 : Nat)
    (he : e = ibuf.getD block 0 &&& 0x7fffffff)
    (he2 : e2 = ibuf.getD (block + 1) 0 &&& 0x7fffffff)
    (hsh2 : e2 <<< align < 4294967296)
    (hmono : e ≤ e2) (htzb : tzb < 4294967296)
    (hofs : e <<< align ≤ tzb) :
    decode_read_pos ibuf align block = e <<< align ∧
    (ibuf.getD block 0 &&& 0x80000000 ≠ 0 →
      decode_read_size ibuf align block_size tzb total_block block = block_size) ∧
    (ibuf.getD block 0 &&& 0x80000000 = 0 → block = total_block - 1 →
      decode_read_size ibuf align block_size tzb total_block block = tzb - e <<< align) ∧
    (ibuf.getD block 0 &&& 0x80000000 = 0 → block ≠ total_block - 1 →
      decode_read_size ibuf align block_size tzb total_block block =
        e2 <<< align - e <<< align) := by
  have hsh : e <<< align < 4294967296 := by
    have : e <<< align ≤ e2 <<< align := by
      rw [Nat.shiftLeft_eq, Nat.shiftLeft_eq]
      exact Nat.mul_le_mul_right _ hmono
    omega
  have hpos : decode_read_pos ibuf align block = e <<< align := by
    unfold decode_read_pos
    rw [← he, Nat.mod_eq_of_lt hsh]
  refine ⟨hpos, fun hpl => ?_, fun hpl hlast => ?_, fun hpl hlast => ?_⟩
  · unfold decode_read_size
    rw [if_pos hpl]
  · unfold decode_read_size
    rw [if_neg (not_not_intro hpl), if_pos hlast, hpos, Nat.mod_eq_of_lt htzb]
    exact u32sub_of_le tzb (e <<< align) hofs htzb
  · unfold decode_read_size
    rw [if_neg (not_not_intro hpl), if_neg hlast, ← he, ← he2]
    have he2lt : e2 < 4294967296 := by
      have hle : e2 ≤ e2 <<< align := by
        rw [Nat.shiftLeft_eq]
        exact Nat.le_mul_of_pos_right e2 (Nat.two_pow_pos align)
      omega
    rw [u32sub_of_le e2 e hmono he2lt]
    rw [Nat.shiftLeft_eq, Nat.shiftLeft_eq, Nat.shiftLeft_eq, Nat.sub_mul]
    rw [Nat.mod_eq_of_lt]
    rw [Nat.shiftLeft_eq] at hsh2
    have : (e2 - e) * 2 ^ align ≤ e2 * 2 ^ align := Nat.mul_le_mul_right _ (by omega)
    omega

/-- C3: the claim as frozen is false: the source computes the seek
position on `u32`, so `index << align` is truncated mod 2^32 — a decode
of a file whose entry 0 is `0x40000000` with align 5 seeks to byte 0, not
to `(0x40000000 & 0x7fffffff) << 5 = 2^35` as the claim states. -/
theorem c3_counterexample :
    decode_read_pos [1073741824, 0] 5 0 = 0 ∧
    ((([1073741824, 0] : List Nat).getD 0 0 &&& 0x7fffffff) <<< 5) = 34359738368 := by
  constructor
  · rfl
  · rfl

theorem c3_witness :
    decode_read_pos [5, 9] 1 0 = 5 <<< 1 ∧
    decode_read_size [5, 9] 1 2048 100 2 0 = 9 <<< 1 - 5 <<< 1 ∧
    decode_read_size [5, 9, 12] 1 2048 100 2 1 = 100 - 9 <<< 1 := by
  have h := c3_read_range [5, 9] 1 2048 100 2 0 5 9 (by decide) (by decide) (by decide)
    (by decide) (by decide) (by decide)
  have h2 := c3_read_range [5, 9, 12] 1 2048 100 2 1 9 12 (by decide) (by decide) (by decide)
    (by decide) (by decide) (by decide)
  exact ⟨h.1, h.2.2.2 (by decide) (by decide), h2.2.2.1 (by decide) (by decide)⟩

/-- Branch equation: a block whose compression ratio reaches the threshold
is stored plain, with the `0x80000000` flag ORed into its entry. -/
theorem encode_block_plain (L : LZ4) (percent align pad : Nat) (iso_data : List Nat)
    (write_pos : Nat) (h : 100 * (L.comp iso_data).length / iso_data.length ≥ percent) :
    encode_block L percent align pad iso_data write_pos =
      some (⟨(set_align write_pos align >>> align) % 4294967296 ||| 0x80000000,
             List.replicate (align_len write_pos align) pad, iso_data, set_align write_pos align⟩,
            set_align write_pos align + iso_data.length) := by
  unfold encode_block
  rw [if_pos h]

/-- Branch equation: a block whose compression ratio is below the
threshold and whose entry does not use bit 31 is stored compressed. -/
theorem encode_block_comp (L : LZ4) (percent align pad : Nat) (iso_data : List Nat)
    (write_pos : Nat) (h : ¬ 100 * (L.comp iso_data).length / iso_data.length ≥ percent)
    (hf : ¬ (set_align write_pos align >>> align) % 4294967296 &&& 0x80000000 > 0) :
    encode_block L percent align pad iso_data write_pos =
      some (⟨(set_align write_pos align >>> align) % 4294967296,
             List.replicate (align_len write_pos align) pad, L.comp iso_data,
             set_align write_pos align⟩,
            set_align write_pos align + (L.comp iso_data).length) := by
  unfold encode_block
  rw [if_neg h, if_neg hf]

/-- C5 (amended): the encoder's alignment-overflow panic (`Align error`)
fires exactly when the block is stored compressed (its ratio is below the
threshold) and the shifted aligned write position already uses bit 31.  A
block stored plain with an overflowing entry does not abort: the plain
flag is ORed into the already-ambiguous entry and encoding continues. -/
theorem c5_overflow_panic (L : LZ4) (percent align pad : Nat) (iso_data : List Nat)
    (write_pos : Nat) :
    encode_block L percent align pad iso_data write_pos = none ↔
      100 * (L.comp iso_data).length / iso_data.length < percent ∧
      (set_align write_pos align >>> align) % 4294967296 &&& 0x80000000 ≠ 0 := by
  unfold encode_block
  by_cases hp : 100 * (L.comp iso_data).length / iso_data.length ≥ percent
  · rw [if_pos hp]
    simp only [reduceCtorEq, false_iff, not_and]
    intro hlt
    omega
  · by_cases hf : (set_align write_pos align >>> align) % 4294967296 &&& 0x80000000 > 0
    · rw [if_neg hp, if_pos hf]
      simp only [true_iff]
      exact ⟨by omega, by omega⟩
    · rw [if_neg hp, if_neg hf]
      simp only [reduceCtorEq, false_iff, not_and]
      intro hlt
      omega

theorem ratio_idCodec (x : List Nat) (hx : x.length ≠ 0) :
    100 * (idCodec.comp x).length / x.length ≥ 100 := by
  have hc : idCodec.comp x = x := rfl
  rw [hc, Nat.mul_div_cancel _ (Nat.pos_of_ne_zero hx)]

/-- C5: the claim as frozen is false: a block whose shifted aligned write
position has bit 31 set but which is stored plain does not raise the
alignment-overflow error — at write position 2^31 with align 0 the encoder
happily writes the ambiguous entry `0x80000000`. -/
theorem c5_counterexample :
    ((set_align 2147483648 0 >>> 0) % 4294967296) &&& 0x80000000 ≠ 0 ∧
    encode_block idCodec 100 0 88 (List.replicate 2048 0) 2147483648 =
      some (⟨2147483648, [], List.replicate 2048 0, 2147483648⟩, 2147485696) := by
  constructor
  · decide
  · rw [encode_block_plain idCodec 100 0 88 (List.replicate 2048 0) 2147483648
      (ratio_idCodec _ (by rw [List.length_replicate]; norm_num))]
    rw [List.length_replicate]
    have h1 : (set_align 2147483648 0 >>> 0) % 4294967296 ||| 0x80000000 = 2147483648 := by decide
    have h2 : align_len 2147483648 0 = 0 := by decide
    have h3 : set_align 2147483648 0 = 2147483648 := by decide
    rw [h1, h2, h3]
    rfl

theorem c5_witness :
    encode_block tinyCodec 50 0 88 (List.replicate 2048 0) 2147483648 = none := by
  rw [c5_overflow_panic]
  constructor
  · have hc : tinyCodec.comp (List.replicate 2048 (0 : Nat)) = [1] := rfl
    rw [hc, List.length_replicate]
    norm_num
  · decide

/-- C4 (amended): a block is stored plain (raw bytes, plain flag ORed into
its entry) exactly when `100 * compressed_len / block_size >= threshold`
(integer division), and stored compressed with the flag clear otherwise;
with the default threshold 100 a compressed result is rejected exactly
when it is at least as large as the block — `compressed_len >= 2048` — so
a result of exactly the block size is also rejected, not only a strictly
larger one. -/
theorem c4_threshold (L : LZ4) (percent align pad : Nat) (iso_data : List Nat)
    (write_pos : Nat) (hlen : iso_data.length = 2048)
    (hnoflag : (set_align write_pos align >>> align) % 4294967296 &&& 0x80000000 = 0) :
    (100 * (L.comp iso_data).length / 2048 ≥ percent →
      encode_block L percent align pad iso_data write_pos =
        some (⟨(set_align write_pos align >>> align) % 4294967296 ||| 0x80000000,
               List.replicate (align_len write_pos align) pad, iso_data,
               set_align write_pos align⟩,
              set_align write_pos align + 2048)) ∧
    (100 * (L.comp iso_data).length / 2048 < percent →
      encode_block L percent align pad iso_data write_pos =
        some (⟨(set_align write_pos align >>> align) % 4294967296,
               List.replicate (align_len write_pos align) pad, L.comp iso_data,
               set_align write_pos align⟩,
              set_align write_pos align + (L.comp iso_data).length)) ∧
    (percent = 100 →
      (100 * (L.comp iso_data).length / 2048 ≥ 100 ↔ 2048 ≤ (L.comp iso_data).length)) := by
  refine ⟨fun hr => ?_, fun hr => ?_, fun _ => by omega⟩
  · rw [encode_block_plain L percent align pad iso_data write_pos (by rw [hlen]; exact hr), hlen]
  · rw [encode_block_comp L percent align pad iso_data write_pos (by rw [hlen]; omega)
      (by omega)]

/-- C4: the claim as frozen is false: with the default threshold 100 a
compressed result of exactly the block size — not strictly larger — is
also rejected: a 2048-byte block whose compressed form has length 2048 is
stored plain, with the plain flag set on its entry. -/
theorem c4_counterexample :
    (idCodec.comp (List.replicate 2048 0)).length = 2048 ∧
    encode_block idCodec 100 0 88 (List.replicate 2048 0) 32 =
      some (⟨2147483680, [], List.replicate 2048 0, 32⟩, 2080) := by
  constructor
  · have hc : idCodec.comp (List.replicate 2048 (0 : Nat)) = List.replicate 2048 0 := rfl
    rw [hc, List.length_replicate]
  · rw [encode_block_plain idCodec 100 0 88 (List.replicate 2048 0) 32
      (ratio_idCodec _ (by rw [List.length_replicate]; norm_num))]
    rw [List.length_replicate]
    have h1 : (set_align 32 0 >>> 0) % 4294967296 ||| 0x80000000 = 2147483680 := by decide
    have h2 : align_len 32 0 = 0 := by decide
    have h3 : set_align 32 0 = 32 := by decide
    rw [h1, h2, h3]
    rfl

theorem c4_witness :
    encode_block tinyCodec 50 0 88 (List.replicate 2048 7) 32 = some (⟨32, [], [1], 32⟩, 33) ∧
    encode_block idCodec 100 0 88 (List.replicate 2048 7) 32 =
      some (⟨2147483680, [], List.replicate 2048 7, 32⟩, 2080) := by
  have hlen : (List.replicate 2048 (7 : Nat)).length = 2048 := by rw [List.length_replicate]
  constructor
  · have h := (c4_threshold tinyCodec 50 0 88 (List.replicate 2048 7) 32 hlen (by decide)).2.1
    have hc : tinyCodec.comp (List.replicate 2048 (7 : Nat)) = [1] := rfl
    rw [hc] at h
    have h' := h (by norm_num)
    have h1 : (set_align 32 0 >>> 0) % 4294967296 = 32 := by decide
    have h2 : align_len 32 0 = 0 := by decide
    have h3 : set_align 32 0 = 32 := by decide
    rw [h1, h2, h3] at h'
    rw [h']
    rfl
  · have h := (c4_threshold idCodec 100 0 88 (List.replicate 2048 7) 32 hlen (by decide)).1
    have hc : idCodec.comp (List.replicate 2048 (7 : Nat)) = List.replicate 2048 7 := rfl
    rw [hc, List.length_replicate] at h
    have h' := h (by norm_num)
    have h1 : (set_align 32 0 >>> 0) % 4294967296 ||| 0x80000000 = 2147483680 := by decide
    have h2 : align_len 32 0 = 0 := by decide
    have h3 : set_align 32 0 = 32 := by decide
    rw [h1, h2, h3] at h'
    rw [h']
    rfl

/-! ## Step lemmas for the trim-and-retry loop -/

theorem lz4_decompress_some (L : LZ4) (c : List Nat) (bs : Nat) (d : List Nat)
    (hd : L.decomp c bs = some d) : lz4_decompress L c bs = .ok (some d) := by
  rw [lz4_decompress, hd]

theorem lz4_decompress_empty (L : LZ4) (bs : Nat) (hd : L.decomp [] bs = none) :
    lz4_decompress L [] bs = .error .removePanic := by
  rw [lz4_decompress, hd]
  rfl

theorem lz4_decompress_step (L : LZ4) (c : List Nat) (bs : Nat)
    (hd : L.decomp c bs = none) (hne : c ≠ []) :
    lz4_decompress L c bs = lz4_decompress L c.dropLast bs := by
  rw [lz4_decompress, hd]
  rw [dif_neg]
  simp [hne]

theorem lz4_trim_terminates_aux (L : LZ4) (bs : Nat) :
    ∀ n (c : List Nat), c.length = n →
      ((∃ d, lz4_decompress L c bs = .ok (some d)) ∨
        lz4_decompress L c bs = .error .removePanic) ∧
      lz4_decompress L c bs ≠ .ok none := by
  intro n
  induction n using Nat.strong_induction_on with
  | _ n ih =>
    intro c hn
    cases hd : L.decomp c bs with
    | some d =>
      rw [lz4_decompress_some L c bs d hd]
      exact ⟨Or.inl ⟨d, rfl⟩, by simp⟩
    | none =>
      by_cases hc : c = []
      · subst hc
        rw [lz4_decompress_empty L bs hd]
        exact ⟨Or.inr rfl, by simp⟩
      · rw [lz4_decompress_step L c bs hd hc]
        have hlt : c.dropLast.length < n := by
          rw [List.length_dropLast]
          cases c with
          | nil => exact absurd rfl hc
          | cons a l => simp [← hn]
        exact ih c.dropLast.length hlt c.dropLast rfl

/-- C2 (amended): for every candidate buffer the trim-and-retry loop
terminates — after at most (buffer length) single-byte trims — and its
outcome is exactly one of: success, returning the decompression of the
longest prefix that decompresses; or, when every prefix fails and the
buffer is exhausted, the out-of-bounds `remove` panic (`removePanic`).
The `CorruptionError` naming the block index and offset is never produced
by exhaustion: the `.ok none` value that the caller's `expect` would
report is unreachable, and a successful recovery need not happen within
`2^align` trims for an arbitrary buffer. -/
theorem c2_trim_loop (L : LZ4) (c : List Nat) (bs : Nat) :
    ((∃ d, lz4_decompress L c bs = .ok (some d)) ∨
      lz4_decompress L c bs = .error .removePanic) ∧
    lz4_decompress L c bs ≠ .ok none :=
  lz4_trim_terminates_aux L bs c.length c rfl

/-- C2: the claim as frozen is false on both counts: with align 0 the
claim allows at most `2^0 = 1` trim, but the buffer `[1,1,1]` under a
codec that only accepts exact-length buffers needs 2 trims to succeed at
block size 1; and at block size 5 every prefix fails, and exhaustion ends
in the `remove` panic — not in a CorruptionError naming block and offset. -/
theorem c2_counterexample :
    lz4_decompress idCodec [1, 1, 1] 5 = .error .removePanic ∧
    lz4_decompress idCodec [1, 1, 1] 1 = .ok (some [1]) ∧
    idCodec.decomp [1, 1, 1] 1 = none ∧ idCodec.decomp [1, 1] 1 = none := by
  have e1 : ([1, 1, 1] : List Nat).dropLast = [1, 1] := rfl
  have e2 : ([1, 1] : List Nat).dropLast = [1] := rfl
  have e3 : ([1] : List Nat).dropLast = [] := rfl
  refine ⟨?_, ?_, by decide, by decide⟩
  · rw [lz4_decompress_step idCodec _ _ (by decide) (by decide), e1,
      lz4_decompress_step idCodec _ _ (by decide) (by decide), e2,
      lz4_decompress_step idCodec _ _ (by decide) (by decide), e3,
      lz4_decompress_empty idCodec 5 (by decide)]
  · rw [lz4_decompress_step idCodec _ _ (by decide) (by decide), e1,
      lz4_decompress_step idCodec _ _ (by decide) (by decide), e2,
      lz4_decompress_some idCodec [1] 1 [1] (by decide)]

/-! ## Inversion and invariants of the encoder loop -/

theorem compress_blocks_nil (L : LZ4) (percent align pad wp : Nat) :
    compress_blocks L percent align pad [] wp = some ([], wp) := rfl

theorem compress_blocks_cons_inv (L : LZ4) (percent align pad : Nat) (b : List Nat)
    (rest : List (List Nat)) (wp : Nat) (bos : List BlockOut) (wpf : Nat)
    (h : compress_blocks L percent align pad (b :: rest) wp = some (bos, wpf)) :
    ∃ bo wp2 bos', encode_block L percent align pad b wp = some (bo, wp2) ∧
      compress_blocks L percent align pad rest wp2 = some (bos', wpf) ∧ bos = bo :: bos' := by
  rcases he : encode_block L percent align pad b wp with _ | ⟨bo, wp2⟩
  · simp [compress_blocks, he] at h
  · rcases hr : compress_blocks L percent align pad rest wp2 with _ | ⟨bos', wpf'⟩
    · simp [compress_blocks, he, hr] at h
    · simp [compress_blocks, he, hr] at h
      refine ⟨bo, wp2, bos', rfl, ?_, h.1.symm⟩
      rw [← h.2]
      exact hr

theorem encode_block_inv (L : LZ4) (percent align pad : Nat) (b : List Nat) (wp : Nat)
    (bo : BlockOut) (wp2 : Nat)
    (h : encode_block L percent align pad b wp = some (bo, wp2)) :
    bo.start = set_align wp align ∧ bo.padb = List.replicate (align_len wp align) pad ∧
    wp2 = bo.start + bo.stored.length ∧
    (bo.entry = (bo.start >>> align) % 4294967296 ∨
      bo.entry = ((bo.start >>> align) % 4294967296) ||| 0x80000000) := by
  unfold encode_block at h
  by_cases hp : 100 * (L.comp b).length / b.length ≥ percent
  · rw [if_pos hp] at h
    simp only [Option.some.injEq, Prod.mk.injEq] at h
    obtain ⟨rfl, rfl⟩ := h
    exact ⟨rfl, rfl, rfl, Or.inr rfl⟩
  · rw [if_neg hp] at h
    by_cases hf : (set_align wp align >>> align) % 4294967296 &&& 0x80000000 > 0
    · rw [if_pos hf] at h
      exact absurd h (by simp)
    · rw [if_neg hf] at h
      simp only [Option.some.injEq, Prod.mk.injEq] at h
      obtain ⟨rfl, rfl⟩ := h
      exact ⟨rfl, rfl, rfl, Or.inl rfl⟩

theorem compress_blocks_le (L : LZ4) (percent align pad : Nat) :
    ∀ (blocks : List (List Nat)) (wp : Nat) (bos : List BlockOut) (wpf : Nat),
      compress_blocks L percent align pad blocks wp = some (bos, wpf) → wp ≤ wpf := by
  intro blocks
  induction blocks with
  | nil =>
    intro wp bos wpf h
    rw [compress_blocks_nil] at h
    simp only [Option.some.injEq, Prod.mk.injEq] at h
    omega
  | cons b rest ih =>
    intro wp bos wpf h
    obtain ⟨bo, wp2, bos', he, hr, rfl⟩ :=
      compress_blocks_cons_inv L percent align pad b rest wp _ wpf h
    obtain ⟨hs, hpadb, hwp2, hentry⟩ := encode_block_inv L percent align pad b wp bo wp2 he
    have h2 := ih wp2 _ wpf hr
    have h3 := le_set_align wp align
    omega

theorem compress_blocks_starts_aligned (L : LZ4) (percent align pad : Nat) :
    ∀ (blocks : List (List Nat)) (wp : Nat) (bos : List BlockOut) (wpf : Nat),
      compress_blocks L percent align pad blocks wp = some (bos, wpf) →
      ∀ bo ∈ bos, bo.start % 2 ^ align = 0 := by
  intro blocks
  induction blocks with
  | nil =>
    intro wp bos wpf h
    rw [compress_blocks_nil] at h
    simp only [Option.some.injEq, Prod.mk.injEq] at h
    rw [← h.1]
    intro bo hbo
    exact absurd hbo (List.not_mem_nil bo)
  | cons b rest ih =>
    intro wp bos wpf h
    obtain ⟨bo, wp2, bos', he, hr, rfl⟩ :=
      compress_blocks_cons_inv L percent align pad b rest wp _ wpf h
    obtain ⟨hs, _, _, _⟩ := encode_block_inv L percent align pad b wp bo wp2 he
    intro x hx
    rcases List.mem_cons.mp hx with rfl | hx'
    · rw [hs]
      exact set_align_mod wp align
    · exact ih wp2 _ wpf hr x hx'

/-- C7: the padding step writes exactly `align_len pos align` filler
bytes: zero when `pos` is already a multiple of `2^align`, and otherwise
the unique amount below `2^align` that makes `pos + align_len` a multiple
of `2^align`; consequently every stored block of an encoder run begins at
a write position divisible by `2^align`. -/
theorem c7_padding (pos align : Nat) (L : LZ4) (percent pad : Nat)
    (blocks : List (List Nat)) (wp : Nat) (bos : List BlockOut) (wpf : Nat)
    (hrun : compress_blocks L percent align pad blocks wp = some (bos, wpf)) :
    (pos + align_len pos align) % 2 ^ align = 0 ∧
    align_len pos align < 2 ^ align ∧
    (pos % 2 ^ align = 0 → align_len pos align = 0) ∧
    (∀ bo ∈ bos, bo.start % 2 ^ align = 0) := by
  refine ⟨?_, align_len_lt pos align, align_len_of_aligned pos align,
    compress_blocks_starts_aligned L percent align pad blocks wp bos wpf hrun⟩
  have := set_align_mod pos align
  unfold set_align at this
  exact this

theorem c7_witness :
    (5 + align_len 5 2) % 2 ^ 2 = 0 ∧ align_len 5 2 < 2 ^ 2 :=
  ⟨(c7_padding 5 2 idCodec 100 88 [] 28 [] 28 rfl).1,
   (c7_padding 5 2 idCodec 100 88 [] 28 [] 28 rfl).2.1⟩

theorem decompress_zso_parse (L : LZ4) (file : List Nat) (h : 22 ≤ file.length) :
    decompress_zso L file =
      decompress_body L file (le32dec (file.take 4)) (le32dec ((file.drop 4).take 4))
        (le64dec ((file.drop 8).take 8)) (le32dec ((file.drop 16).take 4))
        (i8dec (file.getD 20 0)) (i8dec (file.getD 21 0)) := by
  unfold decompress_zso read_zso_header
  rw [if_pos h]

theorem lz4_error_is_remove (L : LZ4) (c : List Nat) (bs : Nat) (e : ZErr)
    (h : lz4_decompress L c bs = .error e) : e = .removePanic := by
  rcases (lz4_trim_terminates_aux L bs c.length c rfl).1 with ⟨d, hd⟩ | hr
  · rw [hd] at h
    cases h
  · rw [hr] at h
    injection h with h'
    exact h'.symm

theorem decode_block_ne_format (L : LZ4) (file ibuf : List Nat) (alignI : Int)
    (block_size tzb total_block block : Nat) :
    decode_block L file ibuf alignI block_size tzb total_block block ≠
      .error .formatError := by
  unfold decode_block
  by_cases hg : alignI < 0 ∨ 32 ≤ alignI
  · rw [if_pos hg]
    simp
  · rw [if_neg hg]
    dsimp only
    by_cases hp : ibuf.getD block 0 &&& 0x80000000 ≠ 0
    · rw [if_pos hp]
      dsimp only
      split
      · simp
      · simp
    · rw [if_neg hp]
      cases hl : lz4_decompress L ((file.drop
          (decode_read_pos ibuf alignI.toNat block)).take
          (decode_read_size ibuf alignI.toNat block_size tzb total_block block)) block_size with
      | error e =>
        have := lz4_error_is_remove L _ _ e hl
        subst this
        simp
      | ok od =>
        cases od with
        | none => simp
        | some dec_data =>
          dsimp only
          split
          · simp
          · simp

theorem decode_loop_ne_format (L : LZ4) (file ibuf : List Nat) (alignI : Int)
    (block_size tzb total_block : Nat) :
    ∀ k block, decode_loop L file ibuf alignI block_size tzb total_block k block ≠
      .error .formatError := by
  intro k
  induction k with
  | zero =>
    intro block
    simp [decode_loop]
  | succ k ih =>
    intro block
    unfold decode_loop
    cases hb : decode_block L file ibuf alignI block_size tzb total_block block with
    | error e =>
      intro hcon
      injection hcon with h'
      exact decode_block_ne_format L file ibuf alignI block_size tzb total_block block
        (by rw [hb, h'])
    | ok dec_data =>
      cases hr : decode_loop L file ibuf alignI block_size tzb total_block k (block + 1) with
      | error e =>
        intro hcon
        injection hcon with h'
        exact ih (block + 1) (by rw [hr, h'])
      | ok rest => simp

/-- C6: header validation during decode fails — `decompress_zso` stops
with the `ziso file format error` panic — if and only if the parsed magic
differs from `0x4F53495A`, the parsed block size is zero, the parsed total
byte count is zero, the declared header size is not 24, or the parsed
(signed `i8`) version exceeds 1; when all five checks pass the decoder
proceeds, and any later failure is a different error (never
`formatError`), the parse itself having no other effect. -/
theorem c6_header_validation (L : LZ4) (file : List Nat) (hlen : 24 ≤ file.length) :
    decompress_zso L file = .error .formatError ↔
      (le32dec (file.take 4) ≠ ZSO_MAGIC ∨ le32dec ((file.drop 16).take 4) = 0 ∨
       le64dec ((file.drop 8).take 8) = 0 ∨ le32dec ((file.drop 4).take 4) ≠ 24 ∨
       i8dec (file.getD 20 0) > 1) := by
  rw [decompress_zso_parse L file (by omega)]
  unfold decompress_body
  by_cases hc : le32dec (file.take 4) ≠ ZSO_MAGIC ∨ le32dec ((file.drop 16).take 4) = 0 ∨
      le64dec ((file.drop 8).take 8) = 0 ∨ le32dec ((file.drop 4).take 4) ≠ 24 ∨
      i8dec (file.getD 20 0) > 1
  · rw [if_pos hc]
    exact ⟨fun _ => hc, fun _ => rfl⟩
  · rw [if_neg hc]
    dsimp only
    constructor
    · intro h
      exfalso
      by_cases he : file.length <
          24 + 4 * (le64dec ((file.drop 8).take 8) / le32dec ((file.drop 16).take 4) + 1)
      · rw [if_pos he] at h
        simp at h
      · rw [if_neg he] at h
        exact decode_loop_ne_format L file _ _ _ _ _ _ _ h
    · intro h
      exact absurd h hc

theorem c6_witness : decompress_zso idCodec (List.replicate 24 0) = .error .formatError := by
  rw [c6_header_validation idCodec (List.replicate 24 0) (by rw [List.length_replicate])]
  left
  decide

/-! ## Truncation to whole blocks (C9) -/

theorem readBlocks_take : ∀ (n : Nat) (data : List Nat),
    readBlocks (data.take (2048 * n)) n = readBlocks data n := by
  intro n
  induction n with
  | zero => intro data; rfl
  | succ n ih =>
    intro data
    unfold readBlocks
    rw [List.take_take, show min 2048 (2048 * (n + 1)) = 2048 from by omega, List.drop_take,
      show 2048 * (n + 1) - 2048 = 2048 * n from by omega, ih (data.drop 2048)]

theorem readBlocks_full_blocks : ∀ (n : Nat) (data : List Nat), 2048 * n ≤ data.length →
    ∀ b ∈ readBlocks data n, b.length = 2048 := by
  intro n
  induction n with
  | zero =>
    intro data _ b hb
    exact absurd hb (List.not_mem_nil b)
  | succ n ih =>
    intro data hlen b hb
    unfold readBlocks at hb
    rcases List.mem_cons.mp hb with rfl | hb'
    · rw [List.length_take]
      omega
    · refine ih (data.drop 2048) ?_ b hb'
      rw [List.length_drop]
      omega

theorem decode_block_ok_length (L : LZ4) (file ibuf : List Nat) (alignI : Int)
    (block_size tzb total_block block : Nat) (d : List Nat)
    (h : decode_block L file ibuf alignI block_size tzb total_block block = .ok d) :
    d.length = block_size := by
  unfold decode_block at h
  by_cases hg : alignI < 0 ∨ 32 ≤ alignI
  · rw [if_pos hg] at h
    exact absurd h (by simp)
  · rw [if_neg hg] at h
    dsimp only at h
    split at h
    · exact absurd h (by simp)
    · exact absurd h (by simp)
    · split at h
      · exact absurd h (by simp)
      · injection h with h'
        subst h'
        omega

theorem decode_loop_ok_length (L : LZ4) (file ibuf : List Nat) (alignI : Int)
    (block_size tzb total_block : Nat) :
    ∀ (k block : Nat) (out : List Nat),
      decode_loop L file ibuf alignI block_size tzb total_block k block = .ok out →
      out.length = k * block_size := by
  intro k
  induction k with
  | zero =>
    intro block out h
    unfold decode_loop at h
    injection h with h'
    subst h'
    simp
  | succ k ih =>
    intro block out h
    unfold decode_loop at h
    cases hb : decode_block L file ibuf alignI block_size tzb total_block block with
    | error e =>
      rw [hb] at h
      exact absurd h (by simp)
    | ok dec_data =>
      rw [hb] at h
      dsimp only at h
      cases hr : decode_loop L file ibuf alignI block_size tzb total_block k (block + 1) with
      | error e =>
        rw [hr] at h
        exact absurd h (by simp)
      | ok rest =>
        rw [hr] at h
        dsimp only at h
        injection h with h'
        subst h'
        rw [List.length_append, ih (block + 1) rest hr,
          decode_block_ok_length L file ibuf alignI block_size tzb total_block block dec_data hb]
        ring

/-- C9: encoding reads and writes only `floor(total_bytes / 2048)` full
2048-byte blocks — the encoder's block list is unchanged when the input is
truncated to that many whole blocks, so the trailing remainder bytes never
reach the container — and every block it processes has exactly 2048 bytes;
a successful decode likewise reconstructs exactly
`block_size * floor(total_bytes / block_size)` bytes, never the
remainder. -/
theorem c9_truncation (L : LZ4) (percent align pad : Nat) (data : List Nat) (wp : Nat)
    (file out : List Nat) (hdec : decompress_zso L file = .ok out) :
    readBlocks data (data.length / 2048) =
      readBlocks (data.take (2048 * (data.length / 2048))) (data.length / 2048) ∧
    compress_blocks L percent align pad (readBlocks data (data.length / 2048)) wp =
      compress_blocks L percent align pad
        (readBlocks (data.take (2048 * (data.length / 2048))) (data.length / 2048)) wp ∧
    (∀ b ∈ readBlocks data (data.length / 2048), b.length = 2048) ∧
    out.length =
      (le64dec ((file.drop 8).take 8) / le32dec ((file.drop 16).take 4)) *
        le32dec ((file.drop 16).take 4) := by
  have h1 := (readBlocks_take (data.length / 2048) data).symm
  refine ⟨h1, by rw [← h1], readBlocks_full_blocks _ data (by omega), ?_⟩
  by_cases hl : 22 ≤ file.length
  · rw [decompress_zso_parse L file hl] at hdec
    unfold decompress_body at hdec
    by_cases hc : le32dec (file.take 4) ≠ ZSO_MAGIC ∨ le32dec ((file.drop 16).take 4) = 0 ∨
        le64dec ((file.drop 8).take 8) = 0 ∨ le32dec ((file.drop 4).take 4) ≠ 24 ∨
        i8dec (file.getD 20 0) > 1
    · rw [if_pos hc] at hdec
      exact absurd hdec (by simp)
    · rw [if_neg hc] at hdec
      dsimp only at hdec
      by_cases he : file.length <
          24 + 4 * (le64dec ((file.drop 8).take 8) / le32dec ((file.drop 16).take 4) + 1)
      · rw [if_pos he] at hdec
        exact absurd hdec (by simp)
      · rw [if_neg he] at hdec
        exact decode_loop_ok_length L file _ _ _ _ _ _ _ out hdec
  · unfold decompress_zso read_zso_header at hdec
    rw [if_neg hl] at hdec
    exact absurd hdec (by simp)

/-! ## Round-trip machinery (C1) -/

theorem compress_blocks_length (L : LZ4) (percent align pad : Nat) :
    ∀ (blocks : List (List Nat)) (wp : Nat) (bos : List BlockOut) (wpf : Nat),
      compress_blocks L percent align pad blocks wp = some (bos, wpf) →
      bos.length = blocks.length := by
  intro blocks
  induction blocks with
  | nil =>
    intro wp bos wpf h
    rw [compress_blocks_nil] at h
    simp only [Option.some.injEq, Prod.mk.injEq] at h
    rw [← h.1]
    rfl
  | cons b rest ih =>
    intro wp bos wpf h
    obtain ⟨bo, wp2, bos', he, hr, rfl⟩ :=
      compress_blocks_cons_inv L percent align pad b rest wp _ wpf h
    rw [List.length_cons, List.length_cons, ih wp2 _ wpf hr]

theorem compress_blocks_payload (L : LZ4) (percent align pad : Nat) :
    ∀ (blocks : List (List Nat)) (wp : Nat) (bos : List BlockOut) (wpf : Nat),
      compress_blocks L percent align pad blocks wp = some (bos, wpf) →
      wpf = wp + (payloadOf bos).length := by
  intro blocks
  induction blocks with
  | nil =>
    intro wp bos wpf h
    rw [compress_blocks_nil] at h
    simp only [Option.some.injEq, Prod.mk.injEq] at h
    rw [← h.1, ← h.2]
    rfl
  | cons b rest ih =>
    intro wp bos wpf h
    obtain ⟨bo, wp2, bos', he, hr, rfl⟩ :=
      compress_blocks_cons_inv L percent align pad b rest wp _ wpf h
    obtain ⟨hs, hpadb, hwp2, _⟩ := encode_block_inv L percent align pad b wp bo wp2 he
    have hrec := ih wp2 _ wpf hr
    have hlenp : bo.padb.length = align_len wp align := by
      rw [hpadb, List.length_replicate]
    have : payloadOf (bo :: bos') = (bo.padb ++ bo.stored) ++ payloadOf bos' := by
      unfold payloadOf
      rw [List.flatMap_cons]
    rw [this, List.length_append, List.length_append, hlenp]
    unfold set_align at hs
    omega

/-- The trim-and-retry loop recovers the exact payload when every strict
extension of it by a prefix of the junk fails to decompress. -/
theorem lz4_trim (L : LZ4) (z : List Nat) (bs : Nat) (d : List Nat)
    (hok : L.decomp z bs = some d) :
    ∀ (junk : List Nat),
      (∀ k, k ≤ junk.length → 0 < k → L.decomp (z ++ junk.take k) bs = none) →
      lz4_decompress L (z ++ junk) bs = .ok (some d) := by
  intro junk
  induction junk using List.reverseRecOn with
  | nil =>
    intro _
    rw [List.append_nil]
    exact lz4_decompress_some L z bs d hok
  | append_singleton junk x ih =>
    intro hfail
    have hlast : L.decomp (z ++ (junk ++ [x])) bs = none := by
      have h2 := hfail ((junk ++ [x]).length) le_rfl (by simp)
      rw [List.take_length] at h2
      exact h2
    rw [lz4_decompress_step L _ bs hlast (by simp)]
    rw [show (z ++ (junk ++ [x])).dropLast = z ++ junk from by
      rw [← List.append_assoc, List.dropLast_concat]]
    refine ih fun k hk h0 => ?_
    have := hfail k (by rw [List.length_append]; simp; omega) h0
    rw [show (junk ++ [x]).take k = junk.take k from List.take_append_of_le_length hk] at this
    exact this

theorem shiftRight_le (s a : Nat) : s >>> a ≤ s := by
  rw [Nat.shiftRight_eq_div_pow]
  exact Nat.div_le_self s (2 ^ a)

theorem entry_stripped_plain (e : Nat) (he : e < 2147483648) :
    (e ||| 0x80000000) &&& 0x7fffffff = e ∧ (e ||| 0x80000000) &&& 0x80000000 ≠ 0 ∧
    e ||| 0x80000000 < 4294967296 := by
  rw [lor_flag_of_lt e he]
  refine ⟨?_, land_flag_of_ge _ (by omega) (by omega), by omega⟩
  rw [land_mask31]
  omega

theorem entry_stripped_comp (e : Nat) (he : e < 2147483648) :
    e &&& 0x7fffffff = e ∧ e &&& 0x80000000 = 0 := by
  constructor
  · rw [land_mask31]
    exact Nat.mod_eq_of_lt he
  · exact land_flag_of_lt e he

theorem decode_block_plain (L : LZ4) (file ibuf : List Nat) (a tzb N b : Nat) (ha : a ≤ 30)
    (hpl : ibuf.getD b 0 &&& 0x80000000 ≠ 0)
    (hlen : ((file.drop (decode_read_pos ibuf a b)).take
      (decode_read_size ibuf a 2048 tzb N b)).length = 2048) :
    decode_block L file ibuf (a : Int) 2048 tzb N b =
      .ok ((file.drop (decode_read_pos ibuf a b)).take
        (decode_read_size ibuf a 2048 tzb N b)) := by
  unfold decode_block
  rw [if_neg (by omega : ¬ ((a : Int) < 0 ∨ 32 ≤ (a : Int)))]
  dsimp only
  rw [show (a : Int).toNat = a from Int.toNat_natCast a]
  rw [if_pos hpl]
  dsimp only
  rw [if_neg (not_not_intro hlen)]

theorem decode_block_lz4 (L : LZ4) (file ibuf : List Nat) (a tzb N b : Nat)
    (dec_data : List Nat) (ha : a ≤ 30)
    (hpl : ibuf.getD b 0 &&& 0x80000000 = 0)
    (hlz : lz4_decompress L ((file.drop (decode_read_pos ibuf a b)).take
      (decode_read_size ibuf a 2048 tzb N b)) 2048 = .ok (some dec_data))
    (hlen : dec_data.length = 2048) :
    decode_block L file ibuf (a : Int) 2048 tzb N b = .ok dec_data := by
  unfold decode_block
  rw [if_neg (by omega : ¬ ((a : Int) < 0 ∨ 32 ≤ (a : Int)))]
  dsimp only
  rw [show (a : Int).toNat = a from Int.toNat_natCast a]
  rw [if_neg (not_not_intro hpl), hlz]
  dsimp only
  rw [if_neg (not_not_intro hlen)]

theorem payloadOf_cons (bo : BlockOut) (bos' : List BlockOut) :
    payloadOf (bo :: bos') = bo.padb ++ (bo.stored ++ payloadOf bos') := by
  unfold payloadOf
  rw [List.flatMap_cons, List.append_assoc]

theorem decode_loop_roundtrip (L : LZ4)
    (hcomp : ∀ x, x.length = 2048 → L.decomp (L.comp x) 2048 = some x)
    (hjunk : ∀ x j, x.length = 2048 → j ≠ [] → L.decomp (L.comp x ++ j) 2048 = none)
    (percent a pad : Nat) (file ibuf : List Nat) (N wpf : Nat)
    (ha : a ≤ 30) (hfl : file.length = wpf) (hwpf : wpf < 2147483648) :
    ∀ (blocks : List (List Nat)) (wp : Nat) (bos : List BlockOut) (b : Nat),
      compress_blocks L percent a pad blocks wp = some (bos, wpf) →
      (∀ x ∈ blocks, x.length = 2048) →
      file.drop wp = payloadOf bos →
      b + blocks.length = N →
      (∀ j, j < bos.length → ibuf.getD (b + j) 0 = (bos.getD j dummyBlock).entry) →
      decode_loop L file ibuf (a : Int) 2048 wpf N blocks.length b = .ok blocks.flatten := by
  intro blocks
  induction blocks with
  | nil =>
    intro wp bos b hrun hblen hfile hbN hibuf
    rfl
  | cons blk rest ih =>
    intro wp bos b hrun hblen hfile hbN hibuf
    obtain ⟨bo, wp2, bos', he, hr, rfl⟩ :=
      compress_blocks_cons_inv L percent a pad blk rest wp _ wpf hrun
    have hblk : blk.length = 2048 := hblen blk (List.mem_cons_self blk rest)
    have hrest_len : ∀ x ∈ rest, x.length = 2048 := fun x hx => hblen x (List.mem_cons_of_mem _ hx)
    obtain ⟨hs, hpadb, hwp2, hentry⟩ := encode_block_inv L percent a pad blk wp bo wp2 he
    have hsmod : bo.start % 2 ^ a = 0 := by rw [hs]; exact set_align_mod wp a
    have hle1 : wp ≤ bo.start := by rw [hs]; exact le_set_align wp a
    have hle2 : wp2 ≤ wpf := compress_blocks_le L percent a pad rest wp2 bos' wpf hr
    have hsle : bo.start ≤ wpf := by omega
    have hsa_lt : bo.start >>> a < 2147483648 :=
      lt_of_le_of_lt (le_trans (shiftRight_le bo.start a) hsle) hwpf
    have hsa_mod : (bo.start >>> a) % 4294967296 = bo.start >>> a :=
      Nat.mod_eq_of_lt (by omega)
    have hshift_back : (bo.start >>> a) <<< a = bo.start :=
      shiftRight_shiftLeft_of_aligned bo.start a hsmod
    have hib0 : ibuf.getD b 0 = bo.entry := by
      have h0 := hibuf 0 (by simp)
      simpa using h0
    have hpadb_len : bo.padb.length = align_len wp a := by
      rw [hpadb, List.length_replicate]
    have halign_len : align_len wp a = bo.start - wp := by
      rw [hs]
      unfold set_align
      omega
    have hdrop_s : file.drop bo.start = bo.stored ++ payloadOf bos' := by
      have h1 : file.drop bo.start = (file.drop wp).drop (bo.start - wp) := by
        rw [List.drop_drop]
        rw [show wp + (bo.start - wp) = bo.start from by omega]
      rw [h1, hfile, payloadOf_cons]
      rw [show bo.start - wp = bo.padb.length from by omega]
      rw [List.drop_left]
    have hdrop_wp2 : file.drop wp2 = payloadOf bos' := by
      have h1 : file.drop wp2 = (file.drop bo.start).drop bo.stored.length := by
        rw [List.drop_drop]
        rw [show bo.start + bo.stored.length = wp2 from by omega]
      rw [h1, hdrop_s, List.drop_left]
    have hibuf' : ∀ j, j < bos'.length →
        ibuf.getD (b + 1 + j) 0 = (bos'.getD j dummyBlock).entry := by
      intro j hj
      have h1 := hibuf (j + 1) (by rw [List.length_cons]; omega)
      rw [show b + (j + 1) = b + 1 + j from by omega] at h1
      rw [h1]
      rfl
    have hrec := ih wp2 bos' (b + 1) hr hrest_len hdrop_wp2 (by rw [List.length_cons] at hbN; omega)
      hibuf'
    rw [List.length_cons]
    unfold decode_loop
    by_cases hplain : 100 * (L.comp blk).length / blk.length ≥ percent
    · -- the block was stored plain
      have hpe := encode_block_plain L percent a pad blk wp hplain
      rw [he] at hpe
      injection hpe with hpe'
      injection hpe' with hpe1 hpe2
      have hstored : bo.stored = blk := by simp only [hpe1]
      have hentryP : bo.entry = ((set_align wp a >>> a) % 4294967296) ||| 0x80000000 := by
        simp only [hpe1]
      rw [← hs] at hentryP
      rw [hsa_mod] at hentryP
      obtain ⟨hstrip, hflag, hlt32⟩ := entry_stripped_plain (bo.start >>> a) hsa_lt
      have hpl : ibuf.getD b 0 &&& 0x80000000 ≠ 0 := by
        rw [hib0, hentryP]
        exact hflag
      have hrp : decode_read_pos ibuf a b = bo.start := by
        unfold decode_read_pos
        rw [hib0, hentryP, hstrip, hshift_back, Nat.mod_eq_of_lt (by omega)]
      have hrs : decode_read_size ibuf a 2048 wpf N b = 2048 := by
        unfold decode_read_size
        rw [if_pos hpl]
      have hzso : (file.drop (decode_read_pos ibuf a b)).take
          (decode_read_size ibuf a 2048 wpf N b) = blk := by
        rw [hrp, hrs, hdrop_s, hstored, ← hblk, List.take_left]
      rw [decode_block_plain L file ibuf a wpf N b ha hpl (by rw [hzso, hblk])]
      rw [hzso, hrec]
      rw [List.flatten_cons]
    · -- the block was stored compressed
      have hf : ¬ (set_align wp a >>> a) % 4294967296 &&& 0x80000000 > 0 := by
        rw [← hs, hsa_mod]
        rw [(entry_stripped_comp (bo.start >>> a) hsa_lt).2]
        omega
      have hpe := encode_block_comp L percent a pad blk wp hplain hf
      rw [he] at hpe
      injection hpe with hpe'
      injection hpe' with hpe1 hpe2
      have hstored : bo.stored = L.comp blk := by simp only [hpe1]
      have hentryC : bo.entry = bo.start >>> a := by
        have h0 : bo.entry = (set_align wp a >>> a) % 4294967296 := by simp only [hpe1]
        rw [← hs, hsa_mod] at h0
        exact h0
      obtain ⟨hstrip, hflag⟩ := entry_stripped_comp (bo.start >>> a) hsa_lt
      have hpl : ibuf.getD b 0 &&& 0x80000000 = 0 := by
        rw [hib0, hentryC]
        exact hflag
      have hrp : decode_read_pos ibuf a b = bo.start := by
        unfold decode_read_pos
        rw [hib0, hentryC, hstrip, hshift_back, Nat.mod_eq_of_lt (by omega)]
      cases rest with
      | nil =>
        -- last block: read exactly to the end of the container
        rw [compress_blocks_nil] at hr
        simp only [Option.some.injEq, Prod.mk.injEq] at hr
        obtain ⟨hbos', hwpf_eq⟩ := hr
        have hblast : b = N - 1 ∧ 1 ≤ N := by
          rw [List.length_cons, List.length_nil] at hbN
          omega
        have hrs : decode_read_size ibuf a 2048 wpf N b = bo.stored.length := by
          unfold decode_read_size
          rw [if_neg (not_not_intro hpl), if_pos hblast.1, hrp,
            Nat.mod_eq_of_lt (by omega : wpf < 4294967296)]
          rw [u32sub_of_le wpf bo.start (by omega) (by omega)]
          omega
        have hzso : (file.drop (decode_read_pos ibuf a b)).take
            (decode_read_size ibuf a 2048 wpf N b) = L.comp blk := by
          rw [hrp, hrs, hdrop_s, ← hbos']
          rw [show payloadOf [] = [] from rfl, List.append_nil, List.take_length, hstored]
        rw [decode_block_lz4 L file ibuf a wpf N b blk ha hpl
          (by rw [hzso]; exact lz4_decompress_some L _ 2048 blk (hcomp blk hblk)) hblk]
        rfl
      | cons blk2 rest2 =>
        -- a later block follows: the read range ends at its aligned start
        obtain ⟨bo2, wp3, bos2, he2, hr2, hbos'⟩ :=
          compress_blocks_cons_inv L percent a pad blk2 rest2 wp2 _ wpf hr
        obtain ⟨hs2, hpadb2, hwp3, hentry2⟩ := encode_block_inv L percent a pad blk2 wp2 bo2 wp3 he2
        have hs2mod : bo2.start % 2 ^ a = 0 := by rw [hs2]; exact set_align_mod wp2 a
        have hle3 : wp2 ≤ bo2.start := by rw [hs2]; exact le_set_align wp2 a
        have hle4 : wp3 ≤ wpf := compress_blocks_le L percent a pad rest2 wp3 bos2 wpf hr2
        have hs2le : bo2.start ≤ wpf := by omega
        have hs2a_lt : bo2.start >>> a < 2147483648 :=
          lt_of_le_of_lt (le_trans (shiftRight_le bo2.start a) hs2le) hwpf
        have hs2a_mod : (bo2.start >>> a) % 4294967296 = bo2.start >>> a :=
          Nat.mod_eq_of_lt (by omega)
        have hshift_back2 : (bo2.start >>> a) <<< a = bo2.start :=
          shiftRight_shiftLeft_of_aligned bo2.start a hs2mod
        have hib1 : ibuf.getD (b + 1) 0 = bo2.entry := by
          have h1 := hibuf 1 (by rw [hbos']; simp)
          rw [h1, hbos']
          rfl
        have hstrip2 : bo2.entry &&& 0x7fffffff = bo2.start >>> a := by
          rcases hentry2 with h2 | h2
          · rw [h2, hs2a_mod]
            exact (entry_stripped_comp (bo2.start >>> a) hs2a_lt).1
          · rw [h2, hs2a_mod]
            exact (entry_stripped_plain (bo2.start >>> a) hs2a_lt).1
        have hmono : bo.start >>> a ≤ bo2.start >>> a := by
          rw [Nat.shiftRight_eq_div_pow, Nat.shiftRight_eq_div_pow]
          exact Nat.div_le_div_right (by omega)
        have hnotlast : b ≠ N - 1 := by
          rw [List.length_cons, List.length_cons] at hbN
          omega
        have hpl2 : align_len wp2 a = bo2.start - wp2 := by
          rw [hs2]
          unfold set_align
          omega
        have hrs : decode_read_size ibuf a 2048 wpf N b =
            bo.stored.length + align_len wp2 a := by
          unfold decode_read_size
          rw [if_neg (not_not_intro hpl), if_neg hnotlast, hib1, hstrip2]
          rw [hib0, hentryC, hstrip]
          rw [u32sub_of_le (bo2.start >>> a) (bo.start >>> a) hmono (by omega)]
          rw [Nat.shiftLeft_eq, Nat.sub_mul]
          rw [← Nat.shiftLeft_eq (bo2.start >>> a), ← Nat.shiftLeft_eq (bo.start >>> a),
            hshift_back, hshift_back2]
          rw [Nat.mod_eq_of_lt (by omega)]
          omega
        have hdrop2 : payloadOf bos' = bo2.padb ++ (bo2.stored ++ payloadOf bos2) := by
          rw [hbos', payloadOf_cons]
        have hzso : (file.drop (decode_read_pos ibuf a b)).take
            (decode_read_size ibuf a 2048 wpf N b) = L.comp blk ++ bo2.padb := by
          rw [hrp, hrs, hdrop_s, hdrop2]
          rw [show bo.stored.length + align_len wp2 a =
            bo.stored.length + align_len wp2 a from rfl]
          rw [List.take_append]
          rw [show align_len wp2 a = bo2.padb.length from by
            rw [hpadb2, List.length_replicate]]
          rw [List.take_left, hstored]
        have hlz : lz4_decompress L (L.comp blk ++ bo2.padb) 2048 = .ok (some blk) := by
          refine lz4_trim L (L.comp blk) 2048 blk (hcomp blk hblk) bo2.padb ?_
          intro k hk h0
          refine hjunk blk (bo2.padb.take k) hblk ?_
          have : (bo2.padb.take k).length = k := by
            rw [List.length_take]
            omega
          intro hcon
          rw [hcon] at this
          simp at this
          omega
        rw [decode_block_lz4 L file ibuf a wpf N b blk ha hpl (by rw [hzso]; exact hlz) hblk]
        rw [hrec]
        rfl

theorem le32dec_le32 (x : Nat) : le32dec (le32 x) = x % 4294967296 := by
  show x % 256 + 256 * (x / 256 % 256) + 65536 * (x / 65536 % 256) +
    16777216 * (x / 16777216 % 256) = x % 4294967296
  omega

theorem le64dec_le64 (x : Nat) : le64dec (le64 x) = x % 18446744073709551616 := by
  unfold le64 le64dec
  rw [show (4 : Nat) = (le32 (x % 4294967296)).length from rfl, List.take_left, List.drop_left]
  rw [le32dec_le32, le32dec_le32]
  omega

theorem readBlocks_length : ∀ (n : Nat) (data : List Nat), (readBlocks data n).length = n := by
  intro n
  induction n with
  | zero => intro data; rfl
  | succ n ih =>
    intro data
    unfold readBlocks
    rw [List.length_cons, ih]

theorem readBlocks_flatten : ∀ (n : Nat) (data : List Nat), data.length = 2048 * n →
    (readBlocks data n).flatten = data := by
  intro n
  induction n with
  | zero =>
    intro data h
    have : data = [] := List.eq_nil_of_length_eq_zero (by omega)
    rw [this]
    rfl
  | succ n ih =>
    intro data h
    unfold readBlocks
    rw [List.flatten_cons, ih (data.drop 2048) (by rw [List.length_drop]; omega)]
    exact List.take_append_drop 2048 data

theorem flatMap_le32_length : ∀ l : List Nat, (l.flatMap le32).length = 4 * l.length := by
  intro l
  induction l with
  | nil => rfl
  | cons x xs ih =>
    rw [List.flatMap_cons, List.length_append, ih, List.length_cons]
    show 4 + 4 * xs.length = 4 * (xs.length + 1)
    ring

theorem flatMap_le32_slice : ∀ (l : List Nat) (rest : List Nat) (i : Nat), i < l.length →
    ((l.flatMap le32 ++ rest).drop (4 * i)).take 4 = le32 (l.getD i 0) := by
  intro l
  induction l with
  | nil =>
    intro rest i hi
    simp at hi
  | cons x xs ih =>
    intro rest i hi
    rw [List.flatMap_cons, List.append_assoc]
    cases i with
    | zero =>
      rw [Nat.mul_zero, List.drop_zero]
      rw [show (4 : Nat) = (le32 x).length from rfl, List.take_left]
      rfl
    | succ j =>
      rw [show 4 * (j + 1) = 4 + 4 * j from by ring, ← List.drop_drop]
      rw [show (le32 x ++ (xs.flatMap le32 ++ rest)).drop 4 = xs.flatMap le32 ++ rest from by
        rw [show (4 : Nat) = (le32 x).length from rfl, List.drop_left]]
      rw [List.getD_cons_succ]
      exact ih rest j (by rw [List.length_cons] at hi; omega)

theorem build_index_getD_lt (bos : List BlockOut) (wpf align j : Nat) (hj : j < bos.length) :
    (build_index bos wpf align).getD j 0 = (bos.getD j dummyBlock).entry := by
  unfold build_index
  rw [List.getD_eq_getElem _ _ (by rw [List.length_append, List.length_map]; simp; omega)]
  rw [List.getElem_append_left (by rw [List.length_map]; exact hj)]
  rw [List.getElem_map]
  rw [List.getD_eq_getElem _ _ hj]

theorem build_index_getD_last (bos : List BlockOut) (wpf align : Nat) :
    (build_index bos wpf align).getD bos.length 0 = (wpf >>> align) % 4294967296 := by
  unfold build_index
  rw [List.getD_eq_getElem _ _ (by rw [List.length_append, List.length_map]; simp)]
  rw [List.getElem_append_right (by rw [List.length_map])]
  simp

theorem compress_blocks_entries_lt (L : LZ4) (percent align pad : Nat) :
    ∀ (blocks : List (List Nat)) (wp : Nat) (bos : List BlockOut) (wpf : Nat),
      compress_blocks L percent align pad blocks wp = some (bos, wpf) →
      ∀ bo ∈ bos, bo.entry < 4294967296 := by
  intro blocks
  induction blocks with
  | nil =>
    intro wp bos wpf h
    rw [compress_blocks_nil] at h
    simp only [Option.some.injEq, Prod.mk.injEq] at h
    rw [← h.1]
    intro bo hbo
    exact absurd hbo (List.not_mem_nil bo)
  | cons b rest ih =>
    intro wp bos wpf h
    obtain ⟨bo, wp2, bos', he, hr, rfl⟩ :=
      compress_blocks_cons_inv L percent align pad b rest wp _ wpf h
    obtain ⟨_, _, _, hentry⟩ := encode_block_inv L percent align pad b wp bo wp2 he
    intro x hx
    rcases List.mem_cons.mp hx with rfl | hx'
    · have hm : (x.start >>> align) % 4294967296 < 4294967296 := Nat.mod_lt _ (by omega)
      rcases hentry with h2 | h2
      · omega
      · rw [h2]
        by_cases hcase : (x.start >>> align) % 4294967296 < 2147483648
        · rw [lor_flag_of_lt _ hcase]
          omega
        · rw [lor_flag_of_ge _ (by omega) hm]
          exact hm
    · exact ih wp2 _ wpf hr x hx'

theorem generate_zso_header_length (t bs al : Nat) :
    (generate_zso_header t bs al).length = 24 := rfl

theorem header_append_parse (t bs al : Nat) (rest : List Nat) :
    (generate_zso_header t bs al ++ rest).take 4 = le32 ZSO_MAGIC ∧
    ((generate_zso_header t bs al ++ rest).drop 4).take 4 = le32 ZSO_HEADER_SIZE ∧
    ((generate_zso_header t bs al ++ rest).drop 8).take 8 = le64 t ∧
    ((generate_zso_header t bs al ++ rest).drop 16).take 4 = le32 bs ∧
    (generate_zso_header t bs al ++ rest).getD 20 0 = 1 ∧
    (generate_zso_header t bs al ++ rest).getD 21 0 = al % 256 ∧
    (generate_zso_header t bs al ++ rest).drop 24 = rest := by
  unfold generate_zso_header le64 ZSO_VER
  refine ⟨?_, ?_, ?_, ?_, ?_, ?_, ?_⟩ <;>
    simp [le32, List.cons_append, List.nil_append, List.take_succ_cons, List.drop_succ_cons,
      List.getD_cons_zero, List.getD_cons_succ]

theorem build_index_length (bos : List BlockOut) (wpf align : Nat) :
    (build_index bos wpf align).length = bos.length + 1 := by
  unfold build_index
  rw [List.length_append, List.length_map]
  rfl

theorem roundtrip_main (L : LZ4)
    (hcomp : ∀ x, x.length = 2048 → L.decomp (L.comp x) 2048 = some x)
    (hjunk : ∀ x j, x.length = 2048 → j ≠ [] → L.decomp (L.comp x ++ j) 2048 = none)
    (percent align_arg pad : Nat) (data file : List Nat)
    (hmul : data.length % 2048 = 0) (hne : data ≠ [])
    (henc : compress_zso L percent align_arg pad data = some file)
    (hsmall : file.length < 2147483648) :
    decompress_zso L file = .ok data := by
  unfold compress_zso compress_core at henc
  by_cases hg : effective_align align_arg data.length < 0 ∨
      64 ≤ effective_align align_arg data.length
  · rw [if_pos hg] at henc
    exact absurd henc (by simp)
  rw [if_neg hg] at henc
  dsimp only at henc
  set al := (effective_align align_arg data.length).toNat with hal_def
  set N := data.length / 2048 with hN_def
  set wp0 := 24 + 4 * (N + 1) with hwp0_def
  cases hrun : compress_blocks L percent al pad (readBlocks data N) wp0 with
  | none =>
    rw [hrun] at henc
    exact absurd henc (by simp)
  | some p =>
    obtain ⟨bos, wpf⟩ := p
    rw [hrun] at henc
    dsimp only [Option.map_some] at henc
    injection henc with hfile_eq
    have hfile : file = generate_zso_header data.length 2048 al ++
        ((build_index bos wpf al).flatMap le32 ++ payloadOf bos) := by
      rw [← hfile_eq]
      dsimp only
      rw [List.append_assoc]
    have hNlen : data.length = 2048 * N := by omega
    have hN1 : 1 ≤ N := by
      have hd0 : data.length ≠ 0 := fun h0 => hne (List.eq_nil_of_length_eq_zero h0)
      omega
    have hboslen : bos.length = N := by
      rw [compress_blocks_length L percent al pad _ wp0 bos wpf hrun, readBlocks_length]
    have hwp0wpf : wp0 ≤ wpf := compress_blocks_le L percent al pad _ wp0 bos wpf hrun
    have hflen : file.length = wpf := by
      rw [hfile, List.length_append, List.length_append, generate_zso_header_length,
        flatMap_le32_length, build_index_length, hboslen]
      have hpay := compress_blocks_payload L percent al pad _ wp0 bos wpf hrun
      omega
    have hwpf : wpf < 2147483648 := by
      rw [← hflen]
      exact hsmall
    -- derive a bound on the alignment from the first block's position
    have hblocks1 : readBlocks data N = data.take 2048 :: readBlocks (data.drop 2048) (N - 1) := by
      obtain ⟨m, hm⟩ : ∃ m, N = m + 1 := ⟨N - 1, by omega⟩
      rw [hm]
      rw [show m + 1 - 1 = m from rfl]
      rfl
    rw [hblocks1] at hrun
    obtain ⟨bo, wp2, bos', he, hr, hbos_eq⟩ :=
      compress_blocks_cons_inv L percent al pad _ _ wp0 bos wpf hrun
    obtain ⟨hs_eq, _, hwp2_eq, _⟩ := encode_block_inv L percent al pad _ wp0 bo wp2 he
    have hsmod : bo.start % 2 ^ al = 0 := by
      rw [hs_eq]
      exact set_align_mod wp0 al
    have hs_pos : 0 < bo.start := by
      rw [hs_eq]
      have := le_set_align wp0 al
      omega
    have hs_le : bo.start ≤ wpf := by
      have := compress_blocks_le L percent al pad _ wp2 bos' wpf hr
      omega
    have hdvd : 2 ^ al ≤ bo.start :=
      Nat.le_of_dvd hs_pos (Nat.dvd_of_mod_eq_zero hsmod)
    have hal30 : al ≤ 30 := by
      by_contra hcon
      push_neg at hcon
      have h31 : (2 : Nat) ^ 31 ≤ 2 ^ al := Nat.pow_le_pow_right (by omega) (by omega)
      have : (2 : Nat) ^ 31 = 2147483648 := by norm_num
      omega
    rw [← hblocks1] at hrun
    -- decode the header back
    have h22 : 22 ≤ file.length := by omega
    obtain ⟨hp1, hp2, hp3, hp4, hp5, hp6, hp7⟩ := header_append_parse data.length 2048 al
      ((build_index bos wpf al).flatMap le32 ++ payloadOf bos)
    have hlen64 : data.length < 18446744073709551616 := by omega
    have e1 : le32dec (file.take 4) = ZSO_MAGIC := by
      rw [hfile, hp1, le32dec_le32]
      decide
    have e2 : le32dec ((file.drop 4).take 4) = 24 := by
      rw [hfile, hp2, le32dec_le32]
      decide
    have e3 : le64dec ((file.drop 8).take 8) = data.length := by
      rw [hfile, hp3, le64dec_le64]
      omega
    have e4 : le32dec ((file.drop 16).take 4) = 2048 := by
      rw [hfile, hp4, le32dec_le32]
    have e5 : i8dec (file.getD 20 0) = 1 := by
      rw [hfile, hp5]
      decide
    have e6 : i8dec (file.getD 21 0) = (al : Int) := by
      rw [hfile, hp6, Nat.mod_eq_of_lt (by omega : al < 256)]
      exact i8dec_of_lt al (by omega)
    have hd0 : data.length ≠ 0 := fun h0 => hne (List.eq_nil_of_length_eq_zero h0)
    rw [decompress_zso_parse L file h22, e1, e2, e3, e4, e5, e6]
    unfold decompress_body
    rw [if_neg (by
      intro hcon
      rcases hcon with h | h | h | h | h
      · exact h rfl
      · exact absurd h (by omega)
      · exact hd0 h
      · exact h rfl
      · exact absurd h (by omega))]
    dsimp only
    rw [← hN_def]
    rw [if_neg (by omega : ¬ file.length < 24 + 4 * (N + 1))]
    rw [hflen]
    have hib : ∀ j, j < N + 1 →
        ((List.range (N + 1)).map (fun i => le32dec ((file.drop (24 + 4 * i)).take 4))).getD j 0 =
          (build_index bos wpf al).getD j 0 := by
      intro j hj
      rw [List.getD_eq_getElem _ _ (by rw [List.length_map, List.length_range]; omega)]
      rw [List.getElem_map, List.getElem_range]
      have hdropslice : file.drop (24 + 4 * j) =
          ((build_index bos wpf al).flatMap le32 ++ payloadOf bos).drop (4 * j) := by
        rw [← List.drop_drop, hfile, hp7]
      rw [hdropslice, flatMap_le32_slice (build_index bos wpf al) (payloadOf bos) j
        (by rw [build_index_length, hboslen]; omega), le32dec_le32]
      have hlt : (build_index bos wpf al).getD j 0 < 4294967296 := by
        by_cases hj2 : j < bos.length
        · rw [build_index_getD_lt bos wpf al j hj2]
          refine compress_blocks_entries_lt L percent al pad _ wp0 bos wpf hrun _ ?_
          rw [List.getD_eq_getElem _ _ hj2]
          exact List.getElem_mem _
        · have hjN : j = bos.length := by omega
          rw [hjN, build_index_getD_last]
          exact Nat.mod_lt _ (by omega)
      omega
    have hdrop0 : file.drop wp0 = payloadOf bos := by
      rw [hwp0_def, ← List.drop_drop, hfile, hp7]
      rw [show (4 * (N + 1)) = ((build_index bos wpf al).flatMap le32).length from by
        rw [flatMap_le32_length, build_index_length, hboslen]]
      rw [List.drop_left]
    have hmain := decode_loop_roundtrip L hcomp hjunk percent al pad file
      ((List.range (N + 1)).map (fun i => le32dec ((file.drop (24 + 4 * i)).take 4)))
      N wpf hal30 hflen hwpf (readBlocks data N) wp0 bos 0 hrun
      (readBlocks_full_blocks N data (by omega))
      hdrop0
      (by rw [readBlocks_length]; omega)
      (fun j hj => by
        rw [Nat.zero_add]
        rw [hib j (by omega)]
        exact build_index_getD_lt bos wpf al j hj)
    rw [readBlocks_length] at hmain
    rw [readBlocks_flatten N data hNlen] at hmain
    exact hmain

/-- C1 (amended): for every nonempty input whose length is an exact
multiple of the block size (2048 bytes), and whose encoded container is
smaller than 2^31 bytes (so that no index entry collides with the plain
flag and no u32 offset truncates), decompressing the file written by
`compress_zso` — any threshold in [1,100], any align argument in [0,5],
any padding byte — reproduces the input byte-for-byte, for every
compressor satisfying the LZ4 block contract (exact round-trip, and
failure on any strict extension of a compressed payload). -/
theorem c1_round_trip (L : LZ4)
    (hcomp : ∀ x, x.length = 2048 → L.decomp (L.comp x) 2048 = some x)
    (hjunk : ∀ x j, x.length = 2048 → j ≠ [] → L.decomp (L.comp x ++ j) 2048 = none)
    (percent align_arg pad : Nat) (data file : List Nat)
    (hp1 : 1 ≤ percent) (hp2 : percent ≤ 100) (ha5 : align_arg ≤ 5)
    (hmul : data.length % 2048 = 0) (hne : data ≠ [])
    (henc : compress_zso L percent align_arg pad data = some file)
    (hsmall : file.length < 2147483648) :
    decompress_zso L file = .ok data :=
  roundtrip_main L hcomp hjunk percent align_arg pad data file hmul hne henc hsmall

/-- C1: the claim as frozen is false at the empty input — a 0-byte input
has length an exact multiple of 2048, the encoder happily writes a
container for it (with `total_bytes = 0` in the header), but the decoder
rejects that very container with the `ziso file format error` panic
(its header check requires `total_bytes != 0`), so decompression does not
reproduce the input. -/
theorem c1_counterexample :
    ([] : List Nat).length % 2048 = 0 ∧
    compress_zso idCodec 100 1 88 [] = some c1emptyFile ∧
    decompress_zso idCodec c1emptyFile = .error .formatError := by
  refine ⟨rfl, ?_, ?_⟩
  · rfl
  · rfl

theorem idCodec_comp_ok : ∀ x : List Nat, x.length = 2048 →
    idCodec.decomp (idCodec.comp x) 2048 = some x := by
  intro x hx
  show (if x.length = 2048 then some x else none) = some x
  rw [if_pos hx]

theorem idCodec_junk_fail : ∀ (x j : List Nat), x.length = 2048 → j ≠ [] →
    idCodec.decomp (idCodec.comp x ++ j) 2048 = none := by
  intro x j hx hj
  show (if (x ++ j).length = 2048 then some (x ++ j) else none) = none
  rw [if_neg]
  intro hcon
  rw [List.length_append, hx] at hcon
  exact hj (List.eq_nil_of_length_eq_zero (by omega))

theorem readBlocks_one_2048 (c : Nat) :
    readBlocks (List.replicate 2048 c) 1 = [List.replicate 2048 c] := by
  unfold readBlocks
  rw [List.take_replicate, Nat.min_self]
  rfl

theorem c1_witness_enc :
    compress_zso idCodec 100 1 88 (List.replicate 2048 7) = some c1file := by
  unfold compress_zso compress_core
  rw [List.length_replicate]
  dsimp only
  rw [show effective_align 1 2048 = (1 : Int) from rfl]
  rw [if_neg (by omega : ¬ ((1 : Int) < 0 ∨ 64 ≤ (1 : Int)))]
  rw [show (2048 : Nat) / 2048 = 1 from by norm_num]
  rw [readBlocks_one_2048]
  rw [show (24 : Nat) + 4 * (1 + 1) = 32 from by norm_num]
  rw [show Int.toNat 1 = 1 from rfl]
  unfold compress_blocks
  rw [encode_block_plain idCodec 100 1 88 (List.replicate 2048 7) 32
    (ratio_idCodec _ (by rw [List.length_replicate]; norm_num))]
  rw [List.length_replicate]
  rw [show set_align 32 1 = 32 from by decide]
  rw [show align_len 32 1 = 0 from by decide]
  rw [show ((32 : Nat) >>> 1) % 4294967296 ||| 0x80000000 = 2147483664 from by decide]
  dsimp only
  rw [compress_blocks_nil]
  simp only [Option.map_some']
  unfold build_index payloadOf
  simp only [List.map_cons, List.map_nil, List.flatMap_cons, List.flatMap_nil]
  rw [show ((32 + 2048 : Nat) >>> 1) % 4294967296 = 1040 from by decide]
  rw [show List.replicate 0 (88 : Nat) = [] from rfl]
  unfold c1file
  simp only [List.singleton_append, List.map_cons, List.map_nil, List.flatMap_cons,
    List.flatMap_nil, List.append_assoc, List.append_nil, List.nil_append]

theorem le32_length (x : Nat) : (le32 x).length = 4 := rfl

theorem c1_witness :
    compress_zso idCodec 100 1 88 (List.replicate 2048 7) = some c1file ∧
    decompress_zso idCodec c1file = .ok (List.replicate 2048 7) := by
  refine ⟨c1_witness_enc, ?_⟩
  refine c1_round_trip idCodec idCodec_comp_ok idCodec_junk_fail 100 1 88 (List.replicate 2048 7)
    c1file (by norm_num) (by norm_num) (by norm_num) (by rw [List.length_replicate]) ?_
    c1_witness_enc ?_
  · intro hcon
    have hl := congrArg List.length hcon
    rw [List.length_replicate] at hl
    exact absurd hl (by norm_num)
  · show c1file.length < 2147483648
    unfold c1file
    rw [List.length_append, List.length_append, List.length_append,
      generate_zso_header_length, le32_length, le32_length, List.length_replicate]
    norm_num

theorem c1file_length : c1file.length = 2080 := by
  unfold c1file
  rw [List.length_append, List.length_append, List.length_append,
    generate_zso_header_length, le32_length, le32_length, List.length_replicate]

theorem c9_witness :
    readBlocks (List.replicate 4100 5) 2 =
      readBlocks ((List.replicate 4100 5).take 4096) 2 ∧
    (∀ b ∈ readBlocks (List.replicate 4100 5) 2, b.length = 2048) ∧
    (List.replicate 2048 (7 : Nat)).length =
      (le64dec ((c1file.drop 8).take 8) / le32dec ((c1file.drop 16).take 4)) *
        le32dec ((c1file.drop 16).take 4) := by
  have hdec : decompress_zso idCodec c1file = .ok (List.replicate 2048 7) :=
    roundtrip_main idCodec idCodec_comp_ok idCodec_junk_fail 100 1 88 _ _
      (by rw [List.length_replicate])
      (by
        intro hcon
        have hl := congrArg List.length hcon
        rw [List.length_replicate] at hl
        exact absurd hl (by norm_num))
      c1_witness_enc
      (by rw [c1file_length]; norm_num)
  have h := c9_truncation idCodec 100 1 88 (List.replicate 4100 5) 40 c1file
    (List.replicate 2048 7) hdec
  rw [List.length_replicate] at h
  rw [show (4100 : Nat) / 2048 = 2 from by norm_num] at h
  rw [show (2048 : Nat) * 2 = 4096 from by norm_num] at h
  exact ⟨h.1, h.2.2.1, h.2.2.2⟩

/-! ## Claim C8: index monotonicity and the final entry -/

theorem readBlocks_replicate : ∀ (n c : Nat),
    readBlocks (List.replicate (2048 * n) c) n = List.replicate n (List.replicate 2048 c) := by
  intro n
  induction n with
  | zero => intro c; rfl
  | succ n ih =>
    intro c
    unfold readBlocks
    rw [List.take_replicate, List.drop_replicate]
    rw [show min 2048 (2048 * (n + 1)) = 2048 from by omega,
        show 2048 * (n + 1) - 2048 = 2048 * n from by omega]
    rw [ih c]
    exact (List.replicate_succ _ _).symm

theorem c8blockOut_shift (pad wp i : Nat) :
    c8blockOut pad (wp + 2048) i = c8blockOut pad wp (i + 1) := by
  unfold c8blockOut c8entry
  rw [show wp + 2048 + 2048 * i = wp + 2048 * (i + 1) from by ring]

theorem compress_blocks_cons_eq (L : LZ4) (percent align pad : Nat) (b : List Nat)
    (rest : List (List Nat)) (wp : Nat) (bo : BlockOut) (wp2 : Nat)
    (he : encode_block L percent align pad b wp = some (bo, wp2)) (bos : List BlockOut)
    (wpf : Nat) (hr : compress_blocks L percent align pad rest wp2 = some (bos, wpf)) :
    compress_blocks L percent align pad (b :: rest) wp = some (bo :: bos, wpf) := by
  unfold compress_blocks
  rw [he]
  show (match compress_blocks L percent align pad rest wp2 with
    | none => none
    | some (bos, wpf) => some (bo :: bos, wpf)) = _
  rw [hr]

theorem compress_blocks_plain_replicate : ∀ (n pad wp : Nat), wp % 2 = 0 →
    compress_blocks idCodec 100 1 pad (List.replicate n (List.replicate 2048 0)) wp =
      some ((List.range n).map (fun i => c8blockOut pad wp i), wp + 2048 * n) := by
  intro n
  induction n with
  | zero =>
    intro pad wp hwp
    simp [compress_blocks_nil]
  | succ n ih =>
    intro pad wp hwp
    have hal : align_len wp 1 = 0 := align_len_of_aligned wp 1 (by rw [pow_one]; exact hwp)
    have hsa : set_align wp 1 = wp := by
      unfold set_align
      rw [hal]
      omega
    have he : encode_block idCodec 100 1 pad (List.replicate 2048 0) wp =
        some (c8blockOut pad wp 0, wp + 2048) := by
      have h100 : 100 * (idCodec.comp (List.replicate 2048 0)).length /
          (List.replicate 2048 0).length ≥ 100 := by
        have hc : idCodec.comp (List.replicate 2048 0) = List.replicate 2048 0 := rfl
        rw [hc, List.length_replicate]
      rw [encode_block_plain idCodec 100 1 pad _ wp h100, hsa, hal, List.length_replicate]
      unfold c8blockOut c8entry
      simp only [Nat.mul_zero, Nat.add_zero]
    show compress_blocks idCodec 100 1 pad
        (List.replicate 2048 0 :: List.replicate n (List.replicate 2048 0)) wp = _
    rw [compress_blocks_cons_eq idCodec 100 1 pad _ _ wp _ _ he _ _
        (ih pad (wp + 2048) (by omega))]
    have hfun : ((fun i => c8blockOut pad wp i) ∘ fun i => i + 1) =
        fun i => c8blockOut pad (wp + 2048) i := by
      funext i
      exact (c8blockOut_shift pad wp i).symm
    rw [List.range_succ_eq_map, List.map_cons, List.map_map, hfun]
    rw [show wp + 2048 + 2048 * n = wp + 2048 * (n + 1) from by ring]

theorem c8core : compress_core idCodec 100 1 88 (List.replicate 4294967296 0) =
    some (1, (List.range 2097152).map (fun i => c8blockOut 88 8388636 i), 4303355932) := by
  unfold compress_core
  rw [List.length_replicate]
  dsimp only
  rw [show effective_align 1 4294967296 = (1 : Int) from by unfold effective_align; norm_num]
  rw [if_neg (by norm_num : ¬((1 : Int) < 0 ∨ 64 ≤ (1 : Int)))]
  rw [show (1 : Int).toNat = 1 from rfl]
  rw [show (4294967296 : Nat) / 2048 = 2097152 from by norm_num]
  rw [show List.replicate 4294967296 (0 : Nat) = List.replicate (2048 * 2097152) 0 from
      congrArg (fun k => List.replicate k (0 : Nat)) (by norm_num)]
  rw [readBlocks_replicate 2097152 0]
  rw [show 24 + 4 * (2097152 + 1) = 8388636 from by norm_num]
  rw [compress_blocks_plain_replicate 2097152 88 8388636 (by norm_num)]

theorem c8_entry_at (pad wp wpf align N i : Nat) (hi : i < N) :
    (build_index ((List.range N).map (fun j => c8blockOut pad wp j)) wpf align).getD i 0 =
      c8entry wp i := by
  rw [build_index_getD_lt _ _ _ _ (by rw [List.length_map, List.length_range]; exact hi)]
  rw [List.getD_eq_getElem _ _ (by rw [List.length_map, List.length_range]; exact hi)]
  simp only [List.getElem_map, List.getElem_range]
  rfl

/-- C8: the claim as frozen is false.  On the 4 GiB all-zero input with
alignment 1 (all blocks stored plain), the index the encoder writes is not
monotone in its stripped low 31 bits — the `as u32` truncation of
`write_pos >> align` wraps bit 31 into the flag position, so the stripped
entry collapses from 2147482638 at block 2093055 to 14 at block 2093056 —
and the final entry, which the claim says carries no plain flag, has bit
31 set. -/
theorem c8_counterexample :
    ∃ idx, compress_index idCodec 100 1 88 (List.replicate 4294967296 0) = some idx ∧
      idx.getD 2093056 0 &&& 0x7fffffff < idx.getD 2093055 0 &&& 0x7fffffff ∧
      idx.getD 2097152 0 &&& 0x80000000 ≠ 0 := by
  have hci : compress_index idCodec 100 1 88 (List.replicate 4294967296 0) =
      some (build_index ((List.range 2097152).map (fun i => c8blockOut 88 8388636 i))
        4303355932 1) := by
    unfold compress_index
    rw [c8core]
    rw [Option.map_some']
  refine ⟨_, hci, ?_, ?_⟩
  · rw [c8_entry_at 88 8388636 4303355932 1 2097152 2093056 (by norm_num),
        c8_entry_at 88 8388636 4303355932 1 2097152 2093055 (by norm_num)]
    decide
  · have hlen : ((List.range 2097152).map (fun i => c8blockOut 88 8388636 i)).length
        = 2097152 := by
      rw [List.length_map, List.length_range]
    have hlast := build_index_getD_last
      ((List.range 2097152).map (fun i => c8blockOut 88 8388636 i)) 4303355932 1
    rw [hlen] at hlast
    rw [hlast]
    decide

theorem compress_blocks_facts (L : LZ4) (percent align pad : Nat) :
    ∀ (blocks : List (List Nat)) (wp : Nat) (bos : List BlockOut) (wpf : Nat),
      compress_blocks L percent align pad blocks wp = some (bos, wpf) →
      (∀ bo ∈ bos, wp ≤ bo.start ∧ bo.start ≤ wpf ∧
        (bo.entry = (bo.start >>> align) % 4294967296 ∨
          bo.entry = ((bo.start >>> align) % 4294967296) ||| 0x80000000)) ∧
      ∀ i, i + 1 < bos.length →
        (bos.getD i dummyBlock).start ≤ (bos.getD (i + 1) dummyBlock).start := by
  intro blocks
  induction blocks with
  | nil =>
    intro wp bos wpf h
    rw [compress_blocks_nil] at h
    simp only [Option.some.injEq, Prod.mk.injEq] at h
    rw [← h.1]
    exact ⟨fun bo hbo => absurd hbo (List.not_mem_nil bo), fun i hi => by simp at hi⟩
  | cons b rest ih =>
    intro wp bos wpf h
    obtain ⟨bo, wp2, bos', he, hr, rfl⟩ :=
      compress_blocks_cons_inv L percent align pad b rest wp _ wpf h
    obtain ⟨hs, hpadb, hwp2, hentry⟩ := encode_block_inv L percent align pad b wp bo wp2 he
    obtain ⟨ihmem, ihmono⟩ := ih wp2 bos' wpf hr
    have hwpf := compress_blocks_le L percent align pad rest wp2 bos' wpf hr
    have hsa := le_set_align wp align
    constructor
    · intro x hx
      rcases List.mem_cons.mp hx with rfl | hx'
      · exact ⟨by omega, by omega, hentry⟩
      · obtain ⟨h1, h2, h3⟩ := ihmem x hx'
        exact ⟨by omega, h2, h3⟩
    · intro i hi
      match i with
      | 0 =>
        rw [List.getD_cons_zero, List.getD_cons_succ]
        rw [List.length_cons] at hi
        have hmem : bos'.getD 0 dummyBlock ∈ bos' := by
          rw [List.getD_eq_getElem _ _ (by omega)]
          exact List.getElem_mem _
        have hx := (ihmem _ hmem).1
        omega
      | i + 1 =>
        rw [List.getD_cons_succ, List.getD_cons_succ]
        rw [List.length_cons] at hi
        exact ihmono i (by omega)

theorem stripped_of_shape (st e align wpf : Nat) (hst : st ≤ wpf)
    (hsm : wpf >>> align < 2147483648)
    (he : e = (st >>> align) % 4294967296 ∨
      e = ((st >>> align) % 4294967296) ||| 0x80000000) :
    e &&& 0x7fffffff = st >>> align := by
  have hmon : st >>> align ≤ wpf >>> align := by
    rw [Nat.shiftRight_eq_div_pow, Nat.shiftRight_eq_div_pow]
    exact Nat.div_le_div_right hst
  have hlt : st >>> align < 2147483648 := by omega
  have hmod : (st >>> align) % 4294967296 = st >>> align := Nat.mod_eq_of_lt (by omega)
  rcases he with rfl | rfl
  · rw [hmod]
    exact (entry_stripped_comp _ hlt).1
  · rw [hmod]
    exact (entry_stripped_plain _ hlt).1

/-- C8 (amended): for an encoder run whose final write position, shifted
by the alignment, still fits in 31 bits, the index table is as the claim
says: the stripped low-31-bit offsets are non-decreasing from each entry
to the next (including into the final entry), and the final entry equals
the final write position shifted by `align`, with no plain flag set.
Without that size bound the property fails (`as u32` truncation). -/
theorem c8_index_monotone (L : LZ4) (percent align pad : Nat) (blocks : List (List Nat))
    (wp : Nat) (bos : List BlockOut) (wpf : Nat)
    (h : compress_blocks L percent align pad blocks wp = some (bos, wpf))
    (hsmall : wpf >>> align < 2147483648) :
    (∀ i, i + 1 < (build_index bos wpf align).length →
      (build_index bos wpf align).getD i 0 &&& 0x7fffffff ≤
        (build_index bos wpf align).getD (i + 1) 0 &&& 0x7fffffff) ∧
    (build_index bos wpf align).getD bos.length 0 = wpf >>> align ∧
    (build_index bos wpf align).getD bos.length 0 &&& 0x80000000 = 0 := by
  obtain ⟨hmem, hmono⟩ := compress_blocks_facts L percent align pad blocks wp bos wpf h
  have hlast : (build_index bos wpf align).getD bos.length 0 = wpf >>> align := by
    rw [build_index_getD_last]
    exact Nat.mod_eq_of_lt (by omega)
  refine ⟨?_, hlast, by rw [hlast]; exact land_flag_of_lt _ hsmall⟩
  intro i hi
  rw [build_index_length] at hi
  have hi' : i < bos.length := by omega
  have hgdi : bos.getD i dummyBlock ∈ bos := by
    rw [List.getD_eq_getElem _ _ hi']
    exact List.getElem_mem _
  obtain ⟨_, hle1, hsh1⟩ := hmem _ hgdi
  have hstr1 : (build_index bos wpf align).getD i 0 &&& 0x7fffffff =
      (bos.getD i dummyBlock).start >>> align := by
    rw [build_index_getD_lt bos wpf align i hi']
    exact stripped_of_shape _ _ align wpf hle1 hsmall hsh1
  rcases Nat.lt_or_ge (i + 1) bos.length with hlt | hge
  · have hgdi2 : bos.getD (i + 1) dummyBlock ∈ bos := by
      rw [List.getD_eq_getElem _ _ hlt]
      exact List.getElem_mem _
    obtain ⟨_, hle2, hsh2⟩ := hmem _ hgdi2
    have hstr2 : (build_index bos wpf align).getD (i + 1) 0 &&& 0x7fffffff =
        (bos.getD (i + 1) dummyBlock).start >>> align := by
      rw [build_index_getD_lt bos wpf align (i + 1) hlt]
      exact stripped_of_shape _ _ align wpf hle2 hsmall hsh2
    rw [hstr1, hstr2]
    have hm := hmono i hlt
    rw [Nat.shiftRight_eq_div_pow, Nat.shiftRight_eq_div_pow]
    exact Nat.div_le_div_right hm
  · have hieq : i + 1 = bos.length := by omega
    rw [hstr1, hieq, hlast, land_mask31, Nat.mod_eq_of_lt hsmall]
    rw [Nat.shiftRight_eq_div_pow, Nat.shiftRight_eq_div_pow]
    exact Nat.div_le_div_right hle1

/-- C8 witness: a one-block run (2048 plain bytes at write position 28,
alignment 1) satisfies the amended invariant: the single interior entry's
stripped offset 14 does not exceed the final entry, and the final entry
is `29 >> 1 = 14` with no flag. -/
theorem c8_witness :
    (∀ i, i + 1 < (build_index [⟨2147483662, [], [5], 28⟩] 29 1).length →
      (build_index [⟨2147483662, [], [5], 28⟩] 29 1).getD i 0 &&& 0x7fffffff ≤
        (build_index [⟨2147483662, [], [5], 28⟩] 29 1).getD (i + 1) 0 &&& 0x7fffffff) ∧
    (build_index [⟨2147483662, [], [5], 28⟩] 29 1).getD 1 0 = 29 >>> 1 ∧
    (build_index [⟨2147483662, [], [5], 28⟩] 29 1).getD 1 0 &&& 0x80000000 = 0 :=
  c8_index_monotone idCodec 100 1 88 [[5]] 28 [⟨2147483662, [], [5], 28⟩] 29 rfl (by decide)
